import Mathlib

/-!
TLC5940 grayscale driver: packed buffer, channel addressing and shift-out

A shallow embedding of `libraries/Tlc5940/Tlc5940.cpp`.

* The global array `tlc_GSData` (`NUM_TLCS * 24` bytes) is a `List Nat`; a byte
  is a natural number below 256.  Every access goes through `readByte` /
  `writeByte`, which return `none` outside the array (the C code would have
  undefined behaviour there), so an operation that returns `some _` has stayed
  inside the array.
* C integer arithmetic is the arithmetic of the AVR target (`<avr/io.h>`):
  `int` and `unsigned int` are 16 bits wide, `uint8_t` is 8 bits wide, and every
  conversion to an unsigned type reduces modulo `2 ^ width`.
* `NUM_TLCS` and `TLC_CHANNEL_TYPE` come from `tlc_config.h`; they are the
  parameters `N` (number of chips) and `cw` (width in bits of the unsigned
  channel type).
* Port writes and SPI transfers are recorded in an event trace.
-/

namespace Tlc5940

/-! ## Memory -/

/-- Read of `tlc_GSData[i]`; `none` when `i` is outside the array. -/
def readByte (buf : List Nat) (i : Nat) : Option Nat :=
  buf[i]?

/-- Store of `x`, converted to `uint8_t`, into `tlc_GSData[i]`; `none` when `i`
is outside the array. -/
def writeByte (buf : List Nat) (i : Nat) (x : Nat) : Option (List Nat) :=
  if i < buf.length then some (buf.set i (x % 256)) else none

/-- The array `tlc_GSData` of a chain of `N` chips: `N * 24` bytes. -/
def IsGSData (N : Nat) (buf : List Nat) : Prop :=
  buf.length = N * 24 ∧ ∀ b ∈ buf, b < 256

instance (N : Nat) (buf : List Nat) : Decidable (IsGSData N buf) := by
  unfold IsGSData
  exact inferInstance

/-! ## Channel addressing -/

/-- The local `index8` of `set` and `get`: `(NUM_TLCS * 16 - 1) - channel`,
computed in `int` and converted to `TLC_CHANNEL_TYPE` (unsigned, `cw` bits). -/
def index8 (N cw channel : Nat) : Nat :=
  ((((N : Int) * 16 - 1) - (channel : Int)) % (2 : Int) ^ cw).toNat

/-- The byte offset of `index12p`: `(((uint16_t)index8) * 3) >> 1`, the product
taken in 16-bit unsigned arithmetic. -/
def index12 (i8 : Nat) : Nat :=
  (((i8 % 65536) * 3) % 65536) >>> 1

/-- `Tlc5940::set(channel, value)`: the array after the call, `none` if the call
touches a byte outside the array. -/
def set (N cw : Nat) (buf : List Nat) (channel value : Nat) : Option (List Nat) :=
  let i8 := index8 N cw channel
  let p := index12 i8
  if i8 &&& 1 ≠ 0 then do
    let old ← readByte buf p
    let buf1 ← writeByte buf p ((old &&& 0xF0) ||| (value >>> 8))
    writeByte buf1 (p + 1) (value &&& 0xFF)
  else do
    let buf1 ← writeByte buf p (value >>> 4)
    let old ← readByte buf1 (p + 1)
    writeByte buf1 (p + 1) ((((value <<< 4) % 65536) % 256) ||| (old &&& 0xF))

/-- `Tlc5940::get(channel)`: the returned `uint16_t`, `none` if the call reads a
byte outside the array. -/
def get (N cw : Nat) (buf : List Nat) (channel : Nat) : Option Nat :=
  let i8 := index8 N cw channel
  let p := index12 i8
  if i8 &&& 1 ≠ 0 then do
    let hi ← readByte buf p
    let lo ← readByte buf (p + 1)
    pure (((((hi &&& 15) % 65536) <<< 8) % 65536 ||| lo) % 65536)
  else do
    let hi ← readByte buf p
    let lo ← readByte buf (p + 1)
    pure (((((hi % 65536) <<< 4) % 65536) ||| ((lo &&& 0xF0) >>> 4)) % 65536)

/-- `Tlc5940::setAll`, the loop `while (p < tlc_GSData + NUM_TLCS * 24)`: `p` is
the offset of the pointer, one unit of fuel is spent per iteration, and the
result is `none` when the fuel runs out or a store falls outside the array. -/
def setAllLoop (N firstByte secondByte value : Nat) :
    Nat → Nat → List Nat → Option (List Nat)
  | 0, p, buf => if p < N * 24 then none else some buf
  | fuel + 1, p, buf =>
    if p < N * 24 then do
      let buf1 ← writeByte buf p firstByte
      let buf2 ← writeByte buf1 (p + 1) secondByte
      let buf3 ← writeByte buf2 (p + 2) value
      setAllLoop N firstByte secondByte value fuel (p + 3) buf3
    else some buf

/-- `Tlc5940::setAll(value)`.  The loop gets `N * 24` units of fuel: the pointer
advances in every iteration, so it cannot run longer than that. -/
def setAll (N : Nat) (buf : List Nat) (value : Nat) : Option (List Nat) :=
  let firstByte := (value >>> 4) % 256
  let secondByte := (((value <<< 4) % 65536) ||| (value >>> 8)) % 256
  setAllLoop N firstByte secondByte value (N * 24) 0 buf

/-- `Tlc5940::clear()`. -/
def clear (N : Nat) (buf : List Nat) : Option (List Nat) :=
  setAll N buf 0

/-! ## Hardware events -/

/-- The output lines named in `tlc_config.h`. -/
inductive Line
  | SIN | SCLK | TLC_SS | XLAT | BLANK | GSCLK
  deriving DecidableEq

/-- The AVR registers assigned by `init` and `tlc_shift8_init`. -/
inductive Register
  | SPSR | SPCR | TCCR2A | TCCR2B | OCR2A | OCR2B
  deriving DecidableEq

/-- The register bits named in those assignments. -/
inductive Bit
  | SPI2X | SPE | MSTR | COM2B1 | WGM20 | WGM21 | WGM22 | CS20
  deriving DecidableEq

/-- One effect on the hardware. -/
inductive Event
  /-- A line is made an output: `X_DDR |= _BV(X_PIN)`. -/
  | output (l : Line)
  /-- A line is driven high: `X_PORT |= _BV(X_PIN)`. -/
  | high (l : Line)
  /-- A line is driven low: `X_PORT &= ~_BV(X_PIN)`. -/
  | low (l : Line)
  /-- One byte is handed to the SPI peripheral and sent: `tlc_shift8(byte)`. -/
  | shift8 (byte : Nat)
  /-- A register is assigned the OR of the listed bits. -/
  | assignBits (r : Register) (bits : List Bit)
  /-- The listed bits are ORed into a register. -/
  | orBits (r : Register) (bits : List Bit)
  /-- A register is assigned a number. -/
  | assign (r : Register) (value : Nat)
  deriving DecidableEq

/-- The driver and what it has done to the hardware so far. -/
structure TlcState where
  /-- The array `tlc_GSData`. -/
  tlc_GSData : List Nat
  /-- Every hardware event so far, oldest first. -/
  trace : List Event
  deriving DecidableEq

/-- The macro `pulse_pin(port, pin)`: `port |= _BV(pin); port &= ~_BV(pin)`. -/
def pulse_pin (l : Line) : List Event :=
  [Event.high l, Event.low l]

/-- `tlc_shift8(byte)`: `SPDR = byte`, then the wait for the transfer to
complete, which the peripheral is taken to finish. -/
def tlc_shift8 (tr : List Event) (byte : Nat) : List Event :=
  tr ++ [Event.shift8 byte]

/-- `tlc_shift8_init()`. -/
def tlc_shift8_init (tr : List Event) : List Event :=
  tr ++ [Event.output Line.SIN, Event.output Line.SCLK, Event.output Line.TLC_SS,
         Event.low Line.SCLK,
         Event.assignBits Register.SPSR [Bit.SPI2X],
         Event.assignBits Register.SPCR [Bit.SPE, Bit.MSTR]]

/-- `Tlc5940::update`, the loop `while (p < tlc_GSData + NUM_TLCS * 24)`: `p` is
the offset of the pointer, one unit of fuel is spent per iteration, and the
result is `none` when the fuel runs out or a load falls outside the array. -/
def updateLoop (N : Nat) (buf : List Nat) : Nat → Nat → List Event → Option (List Event)
  | 0, p, tr => if p < N * 24 then none else some tr
  | fuel + 1, p, tr =>
    if p < N * 24 then do
      let b0 ← readByte buf p
      let b1 ← readByte buf (p + 1)
      let b2 ← readByte buf (p + 2)
      updateLoop N buf fuel (p + 3) (tlc_shift8 (tlc_shift8 (tlc_shift8 tr b0) b1) b2)
    else some tr

/-- `Tlc5940::update()`: the returned `uint8_t` and the state after the call.
The loop gets `N * 24` units of fuel: the pointer advances in every iteration,
so it cannot run longer than that. -/
def update (N : Nat) (s : TlcState) : Option (Nat × TlcState) := do
  let tr ← updateLoop N s.tlc_GSData (N * 24) 0 (s.trace ++ pulse_pin Line.SCLK)
  pure (0, { s with trace := tr })

/-- The polling loop `while (Tlc.update());` of the documentation of `update`:
the state when the loop ends, `none` when `fuel` calls were not enough. -/
def pollUpdate (N : Nat) : Nat → TlcState → Option TlcState
  | 0, _ => none
  | fuel + 1, s => do
    let r ← update N s
    if r.1 ≠ 0 then pollUpdate N fuel r.2 else pure r.2

/-- `Tlc5940::init(initialValue)`. -/
def init (N : Nat) (s : TlcState) (initialValue : Nat) : Option TlcState := do
  let tr1 := s.trace ++ [Event.output Line.XLAT, Event.output Line.BLANK,
    Event.output Line.GSCLK, Event.high Line.BLANK]
  let tr2 := tlc_shift8_init tr1
  let buf ← setAll N s.tlc_GSData initialValue
  let r1 ← update N { tlc_GSData := buf, trace := tr2 }
  let tr3 := r1.2.trace ++ [
    Event.assignBits Register.TCCR2A [Bit.COM2B1, Bit.WGM21, Bit.WGM20],
    Event.assignBits Register.TCCR2B [Bit.WGM22],
    Event.assign Register.OCR2B 16,
    Event.assign Register.OCR2A 32,
    Event.orBits Register.TCCR2B [Bit.CS20]]
  let r2 ← update N { r1.2 with trace := tr3 }
  pure r2.2

/-! ## The serial stream -/

/-- The bytes handed to `tlc_shift8` in a run of events, oldest first. -/
def shiftedBytes : List Event → List Nat
  | [] => []
  | Event.shift8 b :: es => b :: shiftedBytes es
  | _ :: es => shiftedBytes es

/-- The eight bits of a byte in the order the SPI peripheral sends them, most
significant bit first (`tlc_shift8_init` leaves the data order bit clear). -/
def bitsMSB (b : Nat) : List Nat :=
  [b / 128 % 2, b / 64 % 2, b / 32 % 2, b / 16 % 2, b / 8 % 2, b / 4 % 2, b / 2 % 2, b % 2]

/-- The bits on the serial line for a sequence of shifted bytes. -/
def wireBits : List Nat → List Nat
  | [] => []
  | b :: bs => bitsMSB b ++ wireBits bs

/-- The number written by a sequence of bits, most significant first. -/
def bigEndian (bits : List Nat) : Nat :=
  bits.foldl (fun acc bit => 2 * acc + bit) 0

/-- The `k`-th 12-bit field of a bit stream. -/
def wireField (bits : List Nat) (k : Nat) : Nat :=
  bigEndian ((bits.drop (12 * k)).take 12)

/-- The byte at offset `i` of an array, `0` outside it. -/
def byteAt (buf : List Nat) (i : Nat) : Nat :=
  (readByte buf i).getD 0

/-! ## Sequences of calls -/

/-- The array `tlc_GSData` when the program starts: a file-scope array without
an initialiser, so every byte is zero.  No hardware event has happened yet. -/
def initialState (N : Nat) : TlcState :=
  { tlc_GSData := List.replicate (N * 24) 0
    trace := [] }

/-- One call of the public interface of the driver. -/
inductive Op
  | set (channel value : Nat)
  | get (channel : Nat)
  | setAll (value : Nat)
  | clear
  | update
  | init (initialValue : Nat)
  deriving DecidableEq

/-- The state after one call, `none` if the call leaves the array or does not
return.  `set`, `setAll` and `clear` change the array only, `get` changes
nothing, `update` and `init` are as above. -/
def step (N cw : Nat) (s : TlcState) : Op → Option TlcState
  | Op.set c v => (set N cw s.tlc_GSData c v).map (fun b => { s with tlc_GSData := b })
  | Op.get c => (get N cw s.tlc_GSData c).map (fun _ => s)
  | Op.setAll v => (setAll N s.tlc_GSData v).map (fun b => { s with tlc_GSData := b })
  | Op.clear => (clear N s.tlc_GSData).map (fun b => { s with tlc_GSData := b })
  | Op.update => (update N s).map Prod.snd
  | Op.init v => init N s v

/-- The state after a sequence of calls, first call first. -/
def run (N cw : Nat) : List Op → TlcState → Option TlcState
  | [], s => some s
  | op :: ops, s => (step N cw s op).bind (run N cw ops)

/-- A call whose arguments fit the parameter types and the documented channel
range: the channel of `set` is below `16 * N` and its value is a `uint16_t`. -/
def Op.InRange (N : Nat) : Op → Prop
  | Op.set c v => c < 16 * N ∧ v < 65536
  | _ => True

/-- Every `get` of a sequence of calls has its channel below `16 * N`. -/
def Op.GetInRange (N : Nat) : Op → Prop
  | Op.get c => c < 16 * N
  | _ => True

/-- The specification's "calling `set` for every channel": `set c value` for
`c = 0, 1, ..., n - 1` in turn. -/
def setEveryChannel (N cw value : Nat) : Nat → List Nat → Option (List Nat)
  | 0, buf => some buf
  | n + 1, buf => (setEveryChannel N cw value n buf).bind (fun b => set N cw b n value)

/-! ## Bit operations as arithmetic -/

set_option maxRecDepth 100000 in
theorem and_F0 (b : Nat) (hb : b < 256) : b &&& 0xF0 = b / 16 * 16 := by
  revert b; decide

theorem and_0F (b : Nat) : b &&& 0xF = b % 16 :=
  Nat.and_pow_two_sub_one_eq_mod b 4

theorem and_FF (b : Nat) : b &&& 0xFF = b % 256 :=
  Nat.and_pow_two_sub_one_eq_mod b 8

theorem or_low16 (a y : Nat) (hy : y < 16) : a * 16 ||| y = a * 16 + y := by
  have h := Nat.mul_add_lt_is_or (show y < 2 ^ 4 from hy) a
  rw [Nat.mul_comm a 16]
  exact h.symm

theorem or_low256 (a y : Nat) (hy : y < 256) : a * 256 ||| y = a * 256 + y := by
  have h := Nat.mul_add_lt_is_or (show y < 2 ^ 8 from hy) a
  rw [Nat.mul_comm a 256]
  exact h.symm

theorem or_mul16 (a x : Nat) : a * 16 ||| x * 16 = (a ||| x) * 16 := by
  have e : ∀ n, n * 16 = n <<< 4 := fun n => by rw [Nat.shiftLeft_eq]
  rw [e, e, e]
  apply Nat.eq_of_testBit_eq
  intro i
  simp only [Nat.testBit_shiftLeft, Nat.testBit_or]
  by_cases h : 4 ≤ i <;> simp [h]

theorem or_nibble_lt (a x : Nat) (ha : a < 16) (hx : x < 16) : a ||| x < 16 :=
  Nat.or_lt_two_pow (n := 4) ha hx

/-- The byte stored first by the odd branch of `set`. -/
theorem set_odd_first (old v : Nat) (ho : old < 256) (hv : v < 65536) :
    ((old &&& 0xF0) ||| (v >>> 8)) % 256 = (old / 16 ||| v / 4096) * 16 + v / 256 % 16 := by
  have h1 : v >>> 8 = v / 4096 * 16 + v / 256 % 16 := by
    rw [Nat.shiftRight_eq_div_pow]; norm_num; omega
  have h2 : old / 16 ||| v / 4096 < 16 := or_nibble_lt _ _ (by omega) (by omega)
  rw [and_F0 old ho, h1, ← or_low16 (v / 4096) _ (by omega), ← Nat.or_assoc, or_mul16,
    or_low16 _ _ (by omega)]
  omega

/-- The byte stored second by the even branch of `set`. -/
theorem set_even_second (old v : Nat) :
    ((((v <<< 4) % 65536) % 256) ||| (old &&& 0xF)) % 256 = v % 16 * 16 + old % 16 := by
  have h1 : ((v <<< 4) % 65536) % 256 = v % 16 * 16 := by
    rw [Nat.shiftLeft_eq]; norm_num; omega
  rw [h1, and_0F, or_low16 _ _ (by omega)]
  omega

/-- The value assembled by the odd branch of `get`. -/
theorem get_odd_value (hi lo : Nat) (hl : lo < 256) :
    ((((hi &&& 15) % 65536) <<< 8) % 65536 ||| lo) % 65536 = hi % 16 * 256 + lo := by
  have h0 : hi &&& 15 = hi % 16 := Nat.and_pow_two_sub_one_eq_mod hi 4
  have h1 : (((hi &&& 15) % 65536) <<< 8) % 65536 = hi % 16 * 256 := by
    rw [h0, Nat.shiftLeft_eq]; norm_num; omega
  rw [h1, or_low256 _ _ hl]
  omega

/-- The value assembled by the even branch of `get`. -/
theorem get_even_value (hi lo : Nat) (hh : hi < 256) (hl : lo < 256) :
    ((((hi % 65536) <<< 4) % 65536) ||| ((lo &&& 0xF0) >>> 4)) % 65536 = hi * 16 + lo / 16 := by
  have h1 : ((hi % 65536) <<< 4) % 65536 = hi * 16 := by
    rw [Nat.shiftLeft_eq]; norm_num; omega
  have h2 : (lo &&& 0xF0) >>> 4 = lo / 16 := by
    rw [and_F0 lo hl, Nat.shiftRight_eq_div_pow]; norm_num
  rw [h1, h2, or_low16 _ _ (by omega)]
  omega

/-! ## Loads and stores -/

theorem readByte_of_lt {buf : List Nat} {i : Nat} (h : i < buf.length) :
    readByte buf i = some (byteAt buf i) := by
  simp [byteAt, readByte, List.getElem?_eq_getElem h]

theorem writeByte_of_lt {buf : List Nat} {i : Nat} (h : i < buf.length) (x : Nat) :
    writeByte buf i x = some (buf.set i (x % 256)) := by
  simp [writeByte, h]

theorem byteAt_set (buf : List Nat) (i j x : Nat) :
    byteAt (buf.set i x) j = if j = i ∧ i < buf.length then x else byteAt buf j := by
  unfold byteAt readByte
  rw [List.getElem?_set]
  by_cases hij : i = j
  · subst hij
    by_cases hl : i < buf.length
    · simp [hl]
    · simp [hl, List.getElem?_eq_none (Nat.le_of_not_lt hl)]
  · have hji : ¬ j = i := fun h => hij h.symm
    simp [hij, hji]

theorem byteAt_lt {N : Nat} {buf : List Nat} (h : IsGSData N buf) (i : Nat) :
    byteAt buf i < 256 := by
  unfold byteAt readByte
  by_cases hl : i < buf.length
  · rw [List.getElem?_eq_getElem hl]
    exact h.2 _ (List.getElem_mem hl)
  · rw [List.getElem?_eq_none (Nat.le_of_not_lt hl)]
    decide

theorem byteAt_of_le {buf : List Nat} {i : Nat} (h : buf.length ≤ i) : byteAt buf i = 0 := by
  simp [byteAt, readByte, List.getElem?_eq_none h]

theorem isGSData_of_byteAt {N : Nat} {buf : List Nat} (hl : buf.length = N * 24)
    (h : ∀ i, i < buf.length → byteAt buf i < 256) : IsGSData N buf := by
  refine ⟨hl, fun b hb => ?_⟩
  obtain ⟨i, hi, rfl⟩ := List.getElem_of_mem hb
  have := h i hi
  simpa [byteAt, readByte, List.getElem?_eq_getElem hi] using this

/-- Two arrays of one length with the same byte at every offset are equal. -/
theorem ext_byteAt {a b : List Nat} (hl : a.length = b.length)
    (h : ∀ i, i < a.length → byteAt a i = byteAt b i) : a = b := by
  apply List.ext_getElem hl
  intro i h1 h2
  have := h i h1
  simpa [byteAt, readByte, List.getElem?_eq_getElem h1, List.getElem?_eq_getElem h2] using this

theorem readByte_eq_some_iff {buf : List Nat} {i x : Nat} :
    readByte buf i = some x ↔ i < buf.length ∧ byteAt buf i = x := by
  unfold byteAt readByte
  by_cases hl : i < buf.length
  · simp [List.getElem?_eq_getElem hl, hl]
  · simp [List.getElem?_eq_none (Nat.le_of_not_lt hl), hl]

/-! ## Addressing -/

theorem index8_of_lt {N cw c : Nat} (hcw : 16 * N ≤ 2 ^ cw) (hc : c < 16 * N) :
    index8 N cw c = 16 * N - 1 - c := by
  unfold index8
  have h2 : ((2 : Int) ^ cw) = (((2 : Nat) ^ cw : Nat) : Int) := by push_cast; rfl
  have h0 : (0 : Int) ≤ (N : Int) * 16 - 1 - (c : Int) := by omega
  have h1 : (N : Int) * 16 - 1 - (c : Int) < (2 : Int) ^ cw := by rw [h2]; omega
  rw [Int.emod_eq_of_lt h0 h1]
  omega

theorem index12_of_lt {r : Nat} (h : 3 * r < 65536) : index12 r = 3 * r / 2 := by
  unfold index12
  rw [Nat.shiftRight_eq_div_pow]
  norm_num
  omega

/-! ## `set` and `get` in closed form -/

theorem set_odd {N cw : Nat} {buf : List Nat} {c v : Nat}
    (hN : 3 * (16 * N - 1) < 65536) (hcw : 16 * N ≤ 2 ^ cw) (hbuf : IsGSData N buf)
    (hc : c < 16 * N) (hv : v < 65536) (hodd : (16 * N - 1 - c) % 2 = 1) :
    set N cw buf c v = some
      ((buf.set (3 * (16 * N - 1 - c) / 2)
          ((byteAt buf (3 * (16 * N - 1 - c) / 2) / 16 ||| v / 4096) * 16 + v / 256 % 16)).set
        (3 * (16 * N - 1 - c) / 2 + 1) (v % 256)) := by
  have hlen := hbuf.1
  unfold set
  rw [index8_of_lt hcw hc]
  generalize hr : 16 * N - 1 - c = r at hodd ⊢
  have hr3 : 3 * r < 65536 := by omega
  dsimp only
  rw [index12_of_lt hr3]
  generalize ho : 3 * r / 2 = o
  have ho1 : o < buf.length := by omega
  have ho2 : o + 1 < buf.length := by omega
  have hcond : r &&& 1 ≠ 0 := by rw [Nat.and_one_is_mod]; omega
  simp only [hcond, ne_eq, not_false_eq_true, if_true]
  rw [readByte_of_lt ho1]
  simp only [Option.bind_eq_bind, Option.some_bind]
  rw [writeByte_of_lt ho1]
  simp only [Option.some_bind]
  rw [writeByte_of_lt (by rw [List.length_set]; exact ho2)]
  rw [set_odd_first _ _ (byteAt_lt hbuf o) hv, and_FF, Nat.mod_mod]

theorem set_even {N cw : Nat} {buf : List Nat} {c : Nat} (v : Nat)
    (hN : 3 * (16 * N - 1) < 65536) (hcw : 16 * N ≤ 2 ^ cw) (hbuf : IsGSData N buf)
    (hc : c < 16 * N) (heven : (16 * N - 1 - c) % 2 = 0) :
    set N cw buf c v = some
      ((buf.set (3 * (16 * N - 1 - c) / 2) (v / 16 % 256)).set
        (3 * (16 * N - 1 - c) / 2 + 1)
        (v % 16 * 16 + byteAt buf (3 * (16 * N - 1 - c) / 2 + 1) % 16)) := by
  have hlen := hbuf.1
  unfold set
  rw [index8_of_lt hcw hc]
  generalize hr : 16 * N - 1 - c = r at heven ⊢
  have hr3 : 3 * r < 65536 := by omega
  dsimp only
  rw [index12_of_lt hr3]
  generalize ho : 3 * r / 2 = o
  have ho1 : o < buf.length := by omega
  have ho2 : o + 1 < buf.length := by omega
  have hcond : ¬ (r &&& 1 ≠ 0) := by rw [Nat.and_one_is_mod]; omega
  simp only [hcond, if_false]
  rw [writeByte_of_lt ho1]
  simp only [Option.bind_eq_bind, Option.some_bind]
  have ho2' : o + 1 < (buf.set o (v >>> 4 % 256)).length := by
    rw [List.length_set]; exact ho2
  rw [readByte_of_lt ho2']
  simp only [Option.some_bind]
  rw [writeByte_of_lt ho2', set_even_second, byteAt_set]
  have hne : ¬ (o + 1 = o ∧ o < buf.length) := by omega
  rw [if_neg hne, Nat.shiftRight_eq_div_pow]

theorem get_odd {N cw : Nat} {buf : List Nat} {c : Nat}
    (hN : 3 * (16 * N - 1) < 65536) (hcw : 16 * N ≤ 2 ^ cw) (hbuf : IsGSData N buf)
    (hc : c < 16 * N) (hodd : (16 * N - 1 - c) % 2 = 1) :
    get N cw buf c = some
      (byteAt buf (3 * (16 * N - 1 - c) / 2) % 16 * 256
        + byteAt buf (3 * (16 * N - 1 - c) / 2 + 1)) := by
  have hlen := hbuf.1
  unfold get
  rw [index8_of_lt hcw hc]
  generalize hr : 16 * N - 1 - c = r at hodd ⊢
  have hr3 : 3 * r < 65536 := by omega
  dsimp only
  rw [index12_of_lt hr3]
  generalize ho : 3 * r / 2 = o
  have ho1 : o < buf.length := by omega
  have ho2 : o + 1 < buf.length := by omega
  have hcond : r &&& 1 ≠ 0 := by rw [Nat.and_one_is_mod]; omega
  simp only [hcond, ne_eq, not_false_eq_true, if_true]
  rw [readByte_of_lt ho1, readByte_of_lt ho2]
  simp only [Option.bind_eq_bind, Option.some_bind, Option.pure_def]
  rw [get_odd_value _ _ (byteAt_lt hbuf (o + 1))]

theorem get_even {N cw : Nat} {buf : List Nat} {c : Nat}
    (hN : 3 * (16 * N - 1) < 65536) (hcw : 16 * N ≤ 2 ^ cw) (hbuf : IsGSData N buf)
    (hc : c < 16 * N) (heven : (16 * N - 1 - c) % 2 = 0) :
    get N cw buf c = some
      (byteAt buf (3 * (16 * N - 1 - c) / 2) * 16
        + byteAt buf (3 * (16 * N - 1 - c) / 2 + 1) / 16) := by
  have hlen := hbuf.1
  unfold get
  rw [index8_of_lt hcw hc]
  generalize hr : 16 * N - 1 - c = r at heven ⊢
  have hr3 : 3 * r < 65536 := by omega
  dsimp only
  rw [index12_of_lt hr3]
  generalize ho : 3 * r / 2 = o
  have ho1 : o < buf.length := by omega
  have ho2 : o + 1 < buf.length := by omega
  have hcond : ¬ (r &&& 1 ≠ 0) := by rw [Nat.and_one_is_mod]; omega
  simp only [hcond, if_false]
  rw [readByte_of_lt ho1, readByte_of_lt ho2]
  simp only [Option.bind_eq_bind, Option.some_bind, Option.pure_def]
  rw [get_even_value _ _ (byteAt_lt hbuf o) (byteAt_lt hbuf (o + 1))]

/-- What `set` leaves in the array, byte by byte, for any 16-bit value. -/
theorem set_spec {N cw : Nat} {buf : List Nat} {c v : Nat}
    (hN : 3 * (16 * N - 1) < 65536) (hcw : 16 * N ≤ 2 ^ cw) (hbuf : IsGSData N buf)
    (hc : c < 16 * N) (hv : v < 65536) :
    ∃ buf1, set N cw buf c v = some buf1 ∧ IsGSData N buf1 ∧
      ∀ i, byteAt buf1 i =
        if (16 * N - 1 - c) % 2 = 1 then
          if i = 3 * (16 * N - 1 - c) / 2 then
            (byteAt buf i / 16 ||| v / 4096) * 16 + v / 256 % 16
          else if i = 3 * (16 * N - 1 - c) / 2 + 1 then v % 256
          else byteAt buf i
        else
          if i = 3 * (16 * N - 1 - c) / 2 then v / 16 % 256
          else if i = 3 * (16 * N - 1 - c) / 2 + 1 then v % 16 * 16 + byteAt buf i % 16
          else byteAt buf i := by
  have hlen := hbuf.1
  have hbytes : ∀ buf1 : List Nat, buf1.length = buf.length →
      (∀ i, byteAt buf1 i =
        if (16 * N - 1 - c) % 2 = 1 then
          if i = 3 * (16 * N - 1 - c) / 2 then
            (byteAt buf i / 16 ||| v / 4096) * 16 + v / 256 % 16
          else if i = 3 * (16 * N - 1 - c) / 2 + 1 then v % 256
          else byteAt buf i
        else
          if i = 3 * (16 * N - 1 - c) / 2 then v / 16 % 256
          else if i = 3 * (16 * N - 1 - c) / 2 + 1 then v % 16 * 16 + byteAt buf i % 16
          else byteAt buf i) → IsGSData N buf1 := by
    intro buf1 hl1 hb
    refine isGSData_of_byteAt (hl1.trans hlen) (fun i _ => ?_)
    rw [hb i]
    have h0 := byteAt_lt hbuf i
    have h1 : byteAt buf i / 16 ||| v / 4096 < 16 := or_nibble_lt _ _ (by omega) (by omega)
    split_ifs <;> omega
  by_cases hpar : (16 * N - 1 - c) % 2 = 1
  · refine ⟨_, set_odd hN hcw hbuf hc hv hpar, ?_⟩
    have key : ∀ i, byteAt ((buf.set (3 * (16 * N - 1 - c) / 2)
          ((byteAt buf (3 * (16 * N - 1 - c) / 2) / 16 ||| v / 4096) * 16 + v / 256 % 16)).set
        (3 * (16 * N - 1 - c) / 2 + 1) (v % 256)) i =
        if (16 * N - 1 - c) % 2 = 1 then
          if i = 3 * (16 * N - 1 - c) / 2 then
            (byteAt buf i / 16 ||| v / 4096) * 16 + v / 256 % 16
          else if i = 3 * (16 * N - 1 - c) / 2 + 1 then v % 256
          else byteAt buf i
        else
          if i = 3 * (16 * N - 1 - c) / 2 then v / 16 % 256
          else if i = 3 * (16 * N - 1 - c) / 2 + 1 then v % 16 * 16 + byteAt buf i % 16
          else byteAt buf i := by
      intro i
      rw [if_pos hpar, byteAt_set, byteAt_set, List.length_set]
      have ho2 : 3 * (16 * N - 1 - c) / 2 + 1 < buf.length := by omega
      generalize 3 * (16 * N - 1 - c) / 2 = o at *
      by_cases h1 : i = o
      · subst h1
        have hne : ¬ (i = i + 1 ∧ i + 1 < buf.length) := by omega
        have heq : i = i ∧ i < buf.length := ⟨rfl, by omega⟩
        rw [if_neg hne, if_pos heq, if_pos rfl]
      · by_cases h2 : i = o + 1
        · subst h2
          rw [if_pos ⟨rfl, ho2⟩, if_neg h1, if_pos rfl]
        · have hne1 : ¬ (i = o + 1 ∧ o + 1 < buf.length) := fun h => h2 h.1
          have hne2 : ¬ (i = o ∧ o < buf.length) := fun h => h1 h.1
          rw [if_neg hne1, if_neg hne2, if_neg h1, if_neg h2]
    exact ⟨hbytes _ (by simp) key, key⟩
  · have heven : (16 * N - 1 - c) % 2 = 0 := by omega
    refine ⟨_, set_even v hN hcw hbuf hc heven, ?_⟩
    have key : ∀ i, byteAt ((buf.set (3 * (16 * N - 1 - c) / 2) (v / 16 % 256)).set
        (3 * (16 * N - 1 - c) / 2 + 1)
        (v % 16 * 16 + byteAt buf (3 * (16 * N - 1 - c) / 2 + 1) % 16)) i =
        if (16 * N - 1 - c) % 2 = 1 then
          if i = 3 * (16 * N - 1 - c) / 2 then
            (byteAt buf i / 16 ||| v / 4096) * 16 + v / 256 % 16
          else if i = 3 * (16 * N - 1 - c) / 2 + 1 then v % 256
          else byteAt buf i
        else
          if i = 3 * (16 * N - 1 - c) / 2 then v / 16 % 256
          else if i = 3 * (16 * N - 1 - c) / 2 + 1 then v % 16 * 16 + byteAt buf i % 16
          else byteAt buf i := by
      intro i
      rw [if_neg hpar, byteAt_set, byteAt_set, List.length_set]
      have ho2 : 3 * (16 * N - 1 - c) / 2 + 1 < buf.length := by omega
      generalize 3 * (16 * N - 1 - c) / 2 = o at *
      by_cases h1 : i = o
      · subst h1
        have hne : ¬ (i = i + 1 ∧ i + 1 < buf.length) := by omega
        have heq : i = i ∧ i < buf.length := ⟨rfl, by omega⟩
        rw [if_neg hne, if_pos heq, if_pos rfl]
      · by_cases h2 : i = o + 1
        · subst h2
          rw [if_pos ⟨rfl, ho2⟩, if_neg h1, if_pos rfl]
        · have hne1 : ¬ (i = o + 1 ∧ o + 1 < buf.length) := fun h => h2 h.1
          have hne2 : ¬ (i = o ∧ o < buf.length) := fun h => h1 h.1
          rw [if_neg hne1, if_neg hne2, if_neg h1, if_neg h2]
    exact ⟨hbytes _ (by simp) key, key⟩

/-- What `set` leaves in the array, byte by byte, for a 12-bit value. -/
theorem set_spec12 {N cw : Nat} {buf : List Nat} {c v : Nat}
    (hN : 3 * (16 * N - 1) < 65536) (hcw : 16 * N ≤ 2 ^ cw) (hbuf : IsGSData N buf)
    (hc : c < 16 * N) (hv : v < 4096) :
    ∃ buf1, set N cw buf c v = some buf1 ∧ IsGSData N buf1 ∧
      ∀ i, byteAt buf1 i =
        if (16 * N - 1 - c) % 2 = 1 then
          if i = 3 * (16 * N - 1 - c) / 2 then byteAt buf i / 16 * 16 + v / 256
          else if i = 3 * (16 * N - 1 - c) / 2 + 1 then v % 256
          else byteAt buf i
        else
          if i = 3 * (16 * N - 1 - c) / 2 then v / 16
          else if i = 3 * (16 * N - 1 - c) / 2 + 1 then v % 16 * 16 + byteAt buf i % 16
          else byteAt buf i := by
  obtain ⟨buf1, h1, h2, h3⟩ := set_spec hN hcw hbuf hc (show v < 65536 by omega)
  refine ⟨buf1, h1, h2, fun i => ?_⟩
  rw [h3 i]
  have e1 : v / 4096 = 0 := Nat.div_eq_of_lt hv
  have e2 : v / 256 % 16 = v / 256 := by omega
  have e3 : v / 16 % 256 = v / 16 := by omega
  rw [e1, Nat.or_zero, e2, e3]

/-- What `get` returns. -/
theorem get_spec {N cw : Nat} {buf : List Nat} {c : Nat}
    (hN : 3 * (16 * N - 1) < 65536) (hcw : 16 * N ≤ 2 ^ cw) (hbuf : IsGSData N buf)
    (hc : c < 16 * N) :
    get N cw buf c = some
      (if (16 * N - 1 - c) % 2 = 1 then
        byteAt buf (3 * (16 * N - 1 - c) / 2) % 16 * 256
          + byteAt buf (3 * (16 * N - 1 - c) / 2 + 1)
      else
        byteAt buf (3 * (16 * N - 1 - c) / 2) * 16
          + byteAt buf (3 * (16 * N - 1 - c) / 2 + 1) / 16) := by
  by_cases hpar : (16 * N - 1 - c) % 2 = 1
  · rw [if_pos hpar]; exact get_odd hN hcw hbuf hc hpar
  · rw [if_neg hpar]; exact get_even hN hcw hbuf hc (by omega)

/-- After `set c v` every channel reads `v` if it is `c` and what it read before
otherwise. -/
theorem get_after_set {N cw : Nat} {buf : List Nat} {c v : Nat}
    (hN : 3 * (16 * N - 1) < 65536) (hcw : 16 * N ≤ 2 ^ cw) (hbuf : IsGSData N buf)
    (hc : c < 16 * N) (hv : v < 4096) :
    ∃ buf1, set N cw buf c v = some buf1 ∧ IsGSData N buf1 ∧
      ∀ c2, c2 < 16 * N →
        get N cw buf1 c2 = if c2 = c then some v else get N cw buf c2 := by
  obtain ⟨buf1, h1, h2, h3⟩ := set_spec12 hN hcw hbuf hc hv
  refine ⟨buf1, h1, h2, fun c2 hc2 => ?_⟩
  have hb := byteAt_lt hbuf (3 * (16 * N - 1 - c2) / 2)
  have hb1 := byteAt_lt hbuf (3 * (16 * N - 1 - c2) / 2 + 1)
  by_cases hcc : c2 = c
  · subst hcc
    rw [if_pos rfl, get_spec hN hcw h2 hc2, h3, h3]
    refine congrArg some ?_
    split_ifs <;> omega
  · rw [if_neg hcc, get_spec hN hcw h2 hc2, get_spec hN hcw hbuf hc2, h3, h3]
    refine congrArg some ?_
    split_ifs <;> omega

/-! ## Round trip and frame -/

/-- C1. Round trip: in a chain of `N` chips whose largest byte-offset product
`3 * (16 * N - 1)` fits in 16 bits (and whose channel type holds every channel
index), for every array of `24 * N` bytes, every channel `c < 16 * N` and every
value `v ≤ 4095`, `set c v` succeeds and `get c` on the resulting array returns
exactly `v`. -/
theorem get_set_roundtrip (N cw : Nat) (buf : List Nat) (c v : Nat)
    (hN : 3 * (16 * N - 1) < 65536) (hcw : 16 * N ≤ 2 ^ cw) (hbuf : IsGSData N buf)
    (hc : c < 16 * N) (hv : v < 4096) :
    ∃ buf1, set N cw buf c v = some buf1 ∧ get N cw buf1 c = some v := by
  obtain ⟨buf1, h1, h2, h3⟩ := set_spec12 hN hcw hbuf hc hv
  refine ⟨buf1, h1, ?_⟩
  rw [get_spec hN hcw h2 hc, h3, h3]
  have hb := byteAt_lt hbuf (3 * (16 * N - 1 - c) / 2)
  have hb1 := byteAt_lt hbuf (3 * (16 * N - 1 - c) / 2 + 1)
  refine congrArg some ?_
  split_ifs <;> omega

/-- Witness for C1: one chip, 8-bit channel type, channel 5, value `0xABC`. -/
theorem get_set_roundtrip_witness :
    ∃ buf1, set 1 8 (List.replicate 24 0x55) 5 0xABC = some buf1 ∧
      get 1 8 buf1 5 = some 0xABC :=
  get_set_roundtrip 1 8 (List.replicate 24 0x55) 5 0xABC (by decide) (by decide)
    (by decide) (by decide) (by decide)

/-- C2. Frame: for every array of `24 * N` bytes, distinct channels `c` and
`c2` below `16 * N` and every value `v ≤ 4095`, `set c v` succeeds and `get c2`
returns on the resulting array what it returns on the original one. -/
theorem get_set_other (N cw : Nat) (buf : List Nat) (c c2 v : Nat)
    (hN : 3 * (16 * N - 1) < 65536) (hcw : 16 * N ≤ 2 ^ cw) (hbuf : IsGSData N buf)
    (hc : c < 16 * N) (hc2 : c2 < 16 * N) (hne : c ≠ c2) (hv : v < 4096) :
    ∃ buf1, set N cw buf c v = some buf1 ∧ get N cw buf1 c2 = get N cw buf c2 ∧
      (get N cw buf c2).isSome := by
  obtain ⟨buf1, h1, h2, h3⟩ := set_spec12 hN hcw hbuf hc hv
  refine ⟨buf1, h1, ?_, ?_⟩
  · rw [get_spec hN hcw h2 hc2, get_spec hN hcw hbuf hc2, h3, h3]
    have hb := byteAt_lt hbuf (3 * (16 * N - 1 - c2) / 2)
    have hb1 := byteAt_lt hbuf (3 * (16 * N - 1 - c2) / 2 + 1)
    refine congrArg some ?_
    split_ifs <;> omega
  · rw [get_spec hN hcw hbuf hc2]; rfl

/-- Witness for C2: one chip, writing channel 4 and reading its neighbour 5,
which shares byte 16 with it. -/
theorem get_set_other_witness :
    ∃ buf1, set 1 8 (List.range 24) 4 0xABC = some buf1 ∧
      get 1 8 buf1 5 = get 1 8 (List.range 24) 5 ∧ (get 1 8 (List.range 24) 5).isSome :=
  get_set_other 1 8 (List.range 24) 4 5 0xABC (by decide) (by decide)
    (by decide) (by decide) (by decide) (by decide) (by decide)

/-! ## `setAll` -/

/-- The loop of `setAll`, started at a multiple of three with enough fuel, ends
and has written the three-byte pattern from `p` to the end of the array. -/
theorem setAllLoop_spec (N a b v : Nat) :
    ∀ (fuel p : Nat) (buf : List Nat), p % 3 = 0 → p ≤ N * 24 → buf.length = N * 24 →
      N * 24 - p ≤ 3 * fuel →
      ∃ buf1, setAllLoop N a b v fuel p buf = some buf1 ∧ buf1.length = N * 24 ∧
        ∀ i, byteAt buf1 i =
          if p ≤ i ∧ i < N * 24 then
            (if i % 3 = 0 then a % 256 else if i % 3 = 1 then b % 256 else v % 256)
          else byteAt buf i := by
  intro fuel
  induction fuel with
  | zero =>
    intro p buf _ hp hl hf
    have hnot : ¬ p < N * 24 := by omega
    refine ⟨buf, by simp [setAllLoop, hnot], hl, fun i => ?_⟩
    have : ¬ (p ≤ i ∧ i < N * 24) := by omega
    rw [if_neg this]
  | succ fuel ih =>
    intro p buf hp3 hp hl hf
    by_cases hlt : p < N * 24
    · have h0 : p < buf.length := by omega
      have h1 : p + 1 < (buf.set p (a % 256)).length := by rw [List.length_set]; omega
      have h2 : p + 2 < ((buf.set p (a % 256)).set (p + 1) (b % 256)).length := by
        rw [List.length_set, List.length_set]; omega
      obtain ⟨buf1, e1, e2, e3⟩ := ih (p + 3)
        (((buf.set p (a % 256)).set (p + 1) (b % 256)).set (p + 2) (v % 256))
        (by omega) (by omega) (by simp [hl]) (by omega)
      refine ⟨buf1, ?_, e2, fun i => ?_⟩
      · rw [setAllLoop, if_pos hlt, writeByte_of_lt h0]
        simp only [Option.bind_eq_bind, Option.some_bind]
        rw [writeByte_of_lt h1]
        simp only [Option.some_bind]
        rw [writeByte_of_lt h2]
        simp only [Option.some_bind]
        exact e1
      · rw [e3 i, byteAt_set, byteAt_set, byteAt_set, List.length_set, List.length_set]
        split_ifs <;> omega
    · refine ⟨buf, by simp [setAllLoop, hlt], hl, fun i => ?_⟩
      have : ¬ (p ≤ i ∧ i < N * 24) := by omega
      rw [if_neg this]

/-- The second byte of the pattern of `setAll` for a 12-bit value. -/
theorem setAll_second (v : Nat) (hv : v < 4096) :
    (((v <<< 4) % 65536) ||| (v >>> 8)) % 256 = v % 16 * 16 + v / 256 := by
  have h1 : (v <<< 4) % 65536 = v * 16 := by
    rw [Nat.shiftLeft_eq]; norm_num; omega
  have h2 : v >>> 8 = v / 256 := by
    rw [Nat.shiftRight_eq_div_pow]
  rw [h1, h2, or_low16 _ _ (by omega)]
  omega

/-- What `setAll` leaves in the array for a 12-bit value. -/
theorem setAll_spec12 {N : Nat} {buf : List Nat} {v : Nat}
    (hl : buf.length = N * 24) (hv : v < 4096) :
    ∃ buf1, setAll N buf v = some buf1 ∧ IsGSData N buf1 ∧
      ∀ i, i < N * 24 → byteAt buf1 i =
        if i % 3 = 0 then v / 16 else if i % 3 = 1 then v % 16 * 16 + v / 256 else v % 256 := by
  obtain ⟨buf1, e1, e2, e3⟩ := setAllLoop_spec N ((v >>> 4) % 256)
    ((((v <<< 4) % 65536) ||| (v >>> 8)) % 256) v (N * 24) 0 buf (by omega) (by omega) hl
    (by omega)
  have e4 : ∀ i, i < N * 24 → byteAt buf1 i =
      if i % 3 = 0 then v / 16 else if i % 3 = 1 then v % 16 * 16 + v / 256 else v % 256 := by
    intro i hi
    rw [e3 i, if_pos ⟨Nat.zero_le _, hi⟩, setAll_second v hv, Nat.shiftRight_eq_div_pow]
    norm_num
    split_ifs <;> omega
  refine ⟨buf1, e1, isGSData_of_byteAt e2 (fun i hi => ?_), e4⟩
  rw [e4 i (by omega)]
  split_ifs <;> omega

/-- C3. Uniformity of `setAll`: for every initial array of `24 * N` bytes, every
value `v ≤ 4095` and every channel `c < 16 * N`, `setAll v` succeeds and `get c`
on the resulting array returns `v`. -/
theorem get_setAll (N cw : Nat) (buf : List Nat) (c v : Nat)
    (hN : 3 * (16 * N - 1) < 65536) (hcw : 16 * N ≤ 2 ^ cw) (hl : buf.length = N * 24)
    (hc : c < 16 * N) (hv : v < 4096) :
    ∃ buf1, setAll N buf v = some buf1 ∧ get N cw buf1 c = some v := by
  obtain ⟨buf1, h1, h2, h3⟩ := setAll_spec12 hl hv
  refine ⟨buf1, h1, ?_⟩
  rw [get_spec hN hcw h2 hc, h3 _ (by omega), h3 _ (by omega)]
  refine congrArg some ?_
  split_ifs <;> omega

/-- Witness for C3: two chips, 8-bit channel type, channel 17, value `0x9A7`. -/
theorem get_setAll_witness :
    ∃ buf1, setAll 2 (List.range 48) 0x9A7 = some buf1 ∧ get 2 8 buf1 17 = some 0x9A7 :=
  get_setAll 2 8 (List.range 48) 17 0x9A7 (by decide) (by decide) (by decide) (by decide)
    (by decide)

/-! ## `update` -/

theorem drop_eq_byteAt_cons {buf : List Nat} {i : Nat} (h : i < buf.length) :
    buf.drop i = byteAt buf i :: buf.drop (i + 1) := by
  have e : byteAt buf i = buf[i] := by
    simp [byteAt, readByte, List.getElem?_eq_getElem h]
  rw [e]
  exact List.drop_eq_getElem_cons h

/-- The loop of `update`, started at a multiple of three with enough fuel, ends
and has shifted out the bytes from `p` to the end of the array, in order. -/
theorem updateLoop_spec (N : Nat) (buf : List Nat) (hl : buf.length = N * 24) :
    ∀ (fuel p : Nat) (tr : List Event), p % 3 = 0 → p ≤ N * 24 → N * 24 - p ≤ 3 * fuel →
      updateLoop N buf fuel p tr = some (tr ++ (buf.drop p).map Event.shift8) := by
  intro fuel
  induction fuel with
  | zero =>
    intro p tr _ hp hf
    have hnot : ¬ p < N * 24 := by omega
    have hd : buf.drop p = [] := List.drop_eq_nil_of_le (by omega)
    simp [updateLoop, hnot, hd]
  | succ fuel ih =>
    intro p tr hp3 hp hf
    by_cases hlt : p < N * 24
    · have h0 : p < buf.length := by omega
      have h1 : p + 1 < buf.length := by omega
      have h2 : p + 2 < buf.length := by omega
      rw [updateLoop, if_pos hlt, readByte_of_lt h0, readByte_of_lt h1, readByte_of_lt h2]
      simp only [Option.bind_eq_bind, Option.some_bind]
      rw [ih (p + 3) _ (by omega) (by omega) (by omega), drop_eq_byteAt_cons h0,
        drop_eq_byteAt_cons h1, drop_eq_byteAt_cons h2]
      simp [tlc_shift8]
    · have hd : buf.drop p = [] := List.drop_eq_nil_of_le (by omega)
      simp [updateLoop, hlt, hd]

/-- One call of `update` on an array of `24 * N` bytes. -/
theorem update_eq {N : Nat} {s : TlcState} (hl : s.tlc_GSData.length = N * 24) :
    update N s = some (0,
      { tlc_GSData := s.tlc_GSData
        trace := s.trace ++ pulse_pin Line.SCLK ++ s.tlc_GSData.map Event.shift8 }) := by
  unfold update
  rw [updateLoop_spec N s.tlc_GSData hl (N * 24) 0 _ (by omega) (by omega) (by omega)]
  simp

theorem shiftedBytes_append (a b : List Event) :
    shiftedBytes (a ++ b) = shiftedBytes a ++ shiftedBytes b := by
  induction a with
  | nil => simp [shiftedBytes]
  | cons e es ih => cases e <;> simp [shiftedBytes, ih]

theorem shiftedBytes_map (buf : List Nat) : shiftedBytes (buf.map Event.shift8) = buf := by
  induction buf with
  | nil => rfl
  | cons b bs ih => simp [shiftedBytes, ih]

/-- C5. For every array of `24 * N` bytes and every earlier history, one call
of `update` returns, and what it adds to the trace is the sequence-start pulse
(line high, line low) followed by one `tlc_shift8` per byte of the array, in
array order, `24 * N` of them; the array after the call is the array before
it. -/
theorem update_shifts_buffer (N : Nat) (s : TlcState) (hl : s.tlc_GSData.length = N * 24) :
    ∃ r s1, update N s = some (r, s1) ∧
      s1.trace = s.trace ++ [Event.high Line.SCLK, Event.low Line.SCLK]
        ++ s.tlc_GSData.map Event.shift8 ∧
      (s.tlc_GSData.map Event.shift8).length = 24 * N ∧
      s1.tlc_GSData = s.tlc_GSData :=
  ⟨0, _, update_eq hl, rfl, by rw [List.length_map, hl, Nat.mul_comm], rfl⟩

/-- Witness for C5: one chip, the array `0, 1, ..., 23`, no earlier events. -/
theorem update_shifts_buffer_witness :
    ∃ r s1, update 1 ⟨List.range 24, []⟩ = some (r, s1) ∧
      s1.trace = [] ++ [Event.high Line.SCLK, Event.low Line.SCLK]
        ++ (List.range 24).map Event.shift8 ∧
      ((List.range 24).map Event.shift8).length = 24 * 1 ∧
      s1.tlc_GSData = List.range 24 :=
  update_shifts_buffer 1 ⟨List.range 24, []⟩ rfl

/-- C6. For every array of `24 * N` bytes and every earlier history, `update`
returns 0, a second call straight after it returns 0 as well, and the polling
loop `while (Tlc.update());` ends, with any fuel of at least one call, in the
state reached by a single call: the array has been shifted out once. -/
theorem update_returns_zero (N : Nat) (s : TlcState) (hl : s.tlc_GSData.length = N * 24) :
    ∃ s1 s2, update N s = some (0, s1) ∧ update N s1 = some (0, s2) ∧
      (∀ fuel, pollUpdate N (fuel + 1) s = some s1) ∧
      shiftedBytes s1.trace = shiftedBytes s.trace ++ s.tlc_GSData := by
  refine ⟨_, _, update_eq hl, update_eq (s := ⟨s.tlc_GSData, _⟩) hl, fun fuel => ?_, ?_⟩
  · rw [pollUpdate, update_eq hl]
    simp
  · simp [shiftedBytes_append, shiftedBytes_map, pulse_pin, shiftedBytes]

/-- Witness for C6: one chip, the array `0, 1, ..., 23`, after an earlier
transfer of the byte 7. -/
theorem update_returns_zero_witness :
    ∃ s1 s2, update 1 ⟨List.range 24, [Event.shift8 7]⟩ = some (0, s1) ∧
      update 1 s1 = some (0, s2) ∧
      (∀ fuel, pollUpdate 1 (fuel + 1) ⟨List.range 24, [Event.shift8 7]⟩ = some s1) ∧
      shiftedBytes s1.trace = shiftedBytes [Event.shift8 7] ++ List.range 24 :=
  update_returns_zero 1 ⟨List.range 24, [Event.shift8 7]⟩ rfl

/-- C7, as stated, fails: with one chip and an all-zero array, `update` returns
and the trace it leaves holds no event on the latch line `XLAT` at all; its
last event is the transfer of the last byte. -/
theorem update_latch_counterexample :
    ∃ s1, update 1 ⟨List.replicate 24 0, []⟩ = some (0, s1) ∧
      Event.high Line.XLAT ∉ s1.trace ∧ Event.low Line.XLAT ∉ s1.trace ∧
      s1.trace.getLast? = some (Event.shift8 0) :=
  ⟨_, rfl, by decide, by decide, by decide⟩

theorem getLast_eq_byteAt {buf : List Nat} (hne : buf ≠ []) :
    buf.getLast hne = byteAt buf (buf.length - 1) := by
  have hpos : 0 < buf.length := List.length_pos.2 hne
  have hlt : buf.length - 1 < buf.length := by omega
  rw [List.getLast_eq_getElem]
  simp [byteAt, readByte, List.getElem?_eq_getElem hlt]

/-- C7, amended. Every call of `update` on an array of `24 * N` bytes returns,
and the events it adds to the trace are exactly the pulse on the
sequence-start line `SCLK` (high, then low) followed by one byte transfer per
byte of the array, in array order, `24 * N` of them, and nothing else: none of
the events is an event on the latch line `XLAT`, and with at least one chip the
last event is the transfer of the last byte of the array, the byte at offset
`24 * N - 1`. -/
theorem update_no_latch (N : Nat) (s : TlcState) (hl : s.tlc_GSData.length = N * 24) :
    ∃ ev, update N s = some (0, { tlc_GSData := s.tlc_GSData, trace := s.trace ++ ev }) ∧
      ev = [Event.high Line.SCLK, Event.low Line.SCLK] ++ s.tlc_GSData.map Event.shift8 ∧
      (s.tlc_GSData.map Event.shift8).length = 24 * N ∧
      (∀ e ∈ ev, e ≠ Event.high Line.XLAT ∧ e ≠ Event.low Line.XLAT) ∧
      (0 < N → ∃ b, readByte s.tlc_GSData (24 * N - 1) = some b ∧
        ev.getLast? = some (Event.shift8 b)) := by
  refine ⟨pulse_pin Line.SCLK ++ s.tlc_GSData.map Event.shift8, ?_, rfl,
    by rw [List.length_map, hl, Nat.mul_comm], ?_, ?_⟩
  · rw [update_eq hl, List.append_assoc]
  · intro e he
    rw [List.mem_append] at he
    rcases he with he | he
    · simp only [pulse_pin, List.mem_cons, List.mem_singleton, List.not_mem_nil, or_false] at he
      rcases he with rfl | rfl <;> exact ⟨by decide, by decide⟩
    · obtain ⟨b, _, rfl⟩ := List.mem_map.1 he
      exact ⟨fun h => Event.noConfusion h, fun h => Event.noConfusion h⟩
  · intro hN
    have hne : s.tlc_GSData ≠ [] := by
      intro h
      rw [h] at hl
      simp at hl
      omega
    have hm : s.tlc_GSData.map Event.shift8 ≠ [] := by simpa using hne
    have hidx : 24 * N - 1 = s.tlc_GSData.length - 1 := by omega
    refine ⟨byteAt s.tlc_GSData (24 * N - 1), readByte_of_lt (by omega), ?_⟩
    rw [List.getLast?_eq_getLast _ (List.append_ne_nil_of_right_ne_nil _ hm),
      List.getLast_append_right hm, List.getLast_map, getLast_eq_byteAt hne, hidx]

/-- Witness for C7 amended: one chip, the array `0, 1, ..., 23`, after an
earlier transfer of the byte 7. -/
theorem update_no_latch_witness :
    ∃ ev, update 1 ⟨List.range 24, [Event.shift8 7]⟩
        = some (0, { tlc_GSData := List.range 24, trace := [Event.shift8 7] ++ ev }) ∧
      ev = [Event.high Line.SCLK, Event.low Line.SCLK] ++ (List.range 24).map Event.shift8 ∧
      ((List.range 24).map Event.shift8).length = 24 * 1 ∧
      (∀ e ∈ ev, e ≠ Event.high Line.XLAT ∧ e ≠ Event.low Line.XLAT) ∧
      (0 < 1 → ∃ b, readByte (List.range 24) (24 * 1 - 1) = some b ∧
        ev.getLast? = some (Event.shift8 b)) :=
  update_no_latch 1 ⟨List.range 24, [Event.shift8 7]⟩ rfl

/-! ## The wire format -/

theorem length_wireBits (l : List Nat) : (wireBits l).length = 8 * l.length := by
  induction l with
  | nil => rfl
  | cons b bs ih => simp [wireBits, bitsMSB, ih]; omega

theorem drop_wireBits (l : List Nat) : ∀ i, (wireBits l).drop (8 * i) = wireBits (l.drop i) := by
  induction l with
  | nil => intro i; simp [wireBits]
  | cons b bs ih =>
    intro i
    cases i with
    | zero => rfl
    | succ i =>
      have h : 8 * (i + 1) = (bitsMSB b).length + 8 * i := by simp [bitsMSB]; omega
      rw [wireBits, h, List.drop_append, ih i, List.drop_succ_cons]

/-- The 12-bit field that starts on a byte boundary. -/
theorem field_even (b0 b1 : Nat) (rest : List Nat) (h0 : b0 < 256) (h1 : b1 < 256) :
    bigEndian ((wireBits (b0 :: b1 :: rest)).take 12) = b0 * 16 + b1 / 16 := by
  simp only [wireBits, bitsMSB, List.cons_append, List.nil_append, List.take_succ_cons,
    List.take_zero, bigEndian, List.foldl_cons, List.foldl_nil]
  omega

/-- The 12-bit field that starts in the middle of a byte. -/
theorem field_odd (b1 b2 : Nat) (rest : List Nat) (h2 : b2 < 256) :
    bigEndian (((wireBits (b1 :: b2 :: rest)).drop 4).take 12) = b1 % 16 * 256 + b2 := by
  simp only [wireBits, bitsMSB, List.cons_append, List.nil_append, List.drop_succ_cons,
    List.drop_zero, List.take_succ_cons, List.take_zero, bigEndian, List.foldl_cons,
    List.foldl_nil]
  omega

/-- The `k`-th 12-bit field of the bit stream of an array, by the parity of `k`. -/
theorem wireField_wireBits {N : Nat} {buf : List Nat} (hbuf : IsGSData N buf) {k : Nat}
    (hk : k < 16 * N) :
    wireField (wireBits buf) k =
      if k % 2 = 1 then byteAt buf (3 * k / 2) % 16 * 256 + byteAt buf (3 * k / 2 + 1)
      else byteAt buf (3 * k / 2) * 16 + byteAt buf (3 * k / 2 + 1) / 16 := by
  have hlen := hbuf.1
  have ho1 : 3 * k / 2 < buf.length := by omega
  have ho2 : 3 * k / 2 + 1 < buf.length := by omega
  have hb0 := byteAt_lt hbuf (3 * k / 2)
  have hb1 := byteAt_lt hbuf (3 * k / 2 + 1)
  unfold wireField
  by_cases hpar : k % 2 = 1
  · have e : 12 * k = 8 * (3 * k / 2) + 4 := by omega
    rw [if_pos hpar, e, ← List.drop_drop, drop_wireBits, drop_eq_byteAt_cons ho1,
      drop_eq_byteAt_cons ho2]
    exact field_odd _ _ _ hb1
  · have e : 12 * k = 8 * (3 * k / 2) := by omega
    rw [if_neg hpar, e, drop_wireBits, drop_eq_byteAt_cons ho1, drop_eq_byteAt_cons ho2]
    exact field_even _ _ _ hb0 hb1

/-- C4. Wire format: for every array of `24 * N` bytes, `update` returns, and
the bytes it hands to `tlc_shift8`, each expanded most significant bit first,
form `16 * N * 12` bits whose `k`-th 12-bit big-endian field, for every
`k < 16 * N`, is the value `get` returns for channel `16 * N - 1 - k`: channel
15 of the last chip goes out first, channel 0 of the first chip last. -/
theorem update_wire_format (N cw : Nat) (s : TlcState)
    (hN : 3 * (16 * N - 1) < 65536) (hcw : 16 * N ≤ 2 ^ cw)
    (hbuf : IsGSData N s.tlc_GSData) :
    ∃ ev, update N s = some (0, { tlc_GSData := s.tlc_GSData, trace := s.trace ++ ev }) ∧
      (wireBits (shiftedBytes ev)).length = 16 * N * 12 ∧
      ∀ k, k < 16 * N →
        get N cw s.tlc_GSData (16 * N - 1 - k)
          = some (wireField (wireBits (shiftedBytes ev)) k) := by
  have hsb : shiftedBytes (pulse_pin Line.SCLK ++ s.tlc_GSData.map Event.shift8)
      = s.tlc_GSData := by
    rw [shiftedBytes_append, shiftedBytes_map]; rfl
  refine ⟨pulse_pin Line.SCLK ++ s.tlc_GSData.map Event.shift8, ?_, ?_, ?_⟩
  · rw [update_eq hbuf.1, List.append_assoc]
  · rw [hsb, length_wireBits, hbuf.1]; omega
  · intro k hk
    have hr : 16 * N - 1 - (16 * N - 1 - k) = k := by omega
    rw [hsb, get_spec hN hcw hbuf (by omega), hr, wireField_wireBits hbuf hk]

/-- Witness for C4: one chip, 8-bit channel type, the array `0, 1, ..., 23`. -/
theorem update_wire_format_witness :
    ∃ ev, update 1 ⟨List.range 24, []⟩
        = some (0, { tlc_GSData := List.range 24, trace := [] ++ ev }) ∧
      (wireBits (shiftedBytes ev)).length = 16 * 1 * 12 ∧
      ∀ k, k < 16 * 1 →
        get 1 8 (List.range 24) (16 * 1 - 1 - k)
          = some (wireField (wireBits (shiftedBytes ev)) k) :=
  update_wire_format 1 8 ⟨List.range 24, []⟩ (by decide) (by decide) (by decide)

/-! ## The packing layout -/

theorem readByte_congr {a b : List Nat} (hl : a.length = b.length) {i : Nat}
    (h : byteAt a i = byteAt b i) : readByte a i = readByte b i := by
  by_cases hi : i < a.length
  · rw [readByte_of_lt hi, readByte_of_lt (hl ▸ hi), h]
  · have ha : a.length ≤ i := Nat.le_of_not_lt hi
    have hb : b.length ≤ i := hl ▸ ha
    simp [readByte, List.getElem?_eq_none ha, List.getElem?_eq_none hb]

/-- C9. Packing layout, odd case: for every array of `24 * N` bytes, every
channel `c < 16 * N` whose reversed index `r = 16 * N - 1 - c` is odd and every
value `v ≤ 4095`, `set c v` succeeds; in the resulting array the byte at offset
`o = 3 * r / 2` has low nibble `v >> 8` and the high nibble it had before, the
byte at `o + 1` is `v & 0xFF`, and every other byte is as before. -/
theorem set_layout_odd (N cw : Nat) (buf : List Nat) (c v : Nat)
    (hN : 3 * (16 * N - 1) < 65536) (hcw : 16 * N ≤ 2 ^ cw) (hbuf : IsGSData N buf)
    (hc : c < 16 * N) (hv : v < 4096) (hodd : (16 * N - 1 - c) % 2 = 1) :
    ∃ buf1 old new, set N cw buf c v = some buf1 ∧
      readByte buf (3 * (16 * N - 1 - c) / 2) = some old ∧
      readByte buf1 (3 * (16 * N - 1 - c) / 2) = some new ∧
      new % 16 = v >>> 8 ∧ new / 16 = old / 16 ∧
      readByte buf1 (3 * (16 * N - 1 - c) / 2 + 1) = some (v &&& 0xFF) ∧
      buf1.length = buf.length ∧
      ∀ i, i ≠ 3 * (16 * N - 1 - c) / 2 → i ≠ 3 * (16 * N - 1 - c) / 2 + 1 →
        readByte buf1 i = readByte buf i := by
  obtain ⟨buf1, h1, h2, h3⟩ := set_spec12 hN hcw hbuf hc hv
  have hlen : buf1.length = buf.length := h2.1.trans hbuf.1.symm
  have hl := hbuf.1
  have ho1 : 3 * (16 * N - 1 - c) / 2 < buf.length := by omega
  have ho2 : 3 * (16 * N - 1 - c) / 2 + 1 < buf.length := by omega
  have hold := byteAt_lt hbuf (3 * (16 * N - 1 - c) / 2)
  refine ⟨buf1, byteAt buf (3 * (16 * N - 1 - c) / 2),
    byteAt buf1 (3 * (16 * N - 1 - c) / 2), h1, readByte_of_lt ho1,
    readByte_of_lt (hlen ▸ ho1), ?_, ?_, ?_, hlen, ?_⟩
  · rw [h3, if_pos hodd, if_pos rfl, Nat.shiftRight_eq_div_pow]
    norm_num
    omega
  · rw [h3, if_pos hodd, if_pos rfl]
    omega
  · rw [readByte_of_lt (hlen ▸ ho2), h3, if_pos hodd, if_neg (by omega), if_pos rfl, and_FF]
  · intro i hi1 hi2
    apply readByte_congr hlen
    rw [h3, if_pos hodd, if_neg hi1, if_neg hi2]

/-- Witness for C9, the example of the specification: one chip, channel 0
(reversed index 15), value `0xABC`, on an array filled with `0x55`. -/
theorem set_layout_odd_witness :
    ∃ buf1 old new, set 1 8 (List.replicate 24 0x55) 0 0xABC = some buf1 ∧
      readByte (List.replicate 24 0x55) 22 = some old ∧
      readByte buf1 22 = some new ∧
      new % 16 = 0xA ∧ new / 16 = old / 16 ∧
      readByte buf1 23 = some 0xBC ∧
      buf1.length = 24 ∧
      ∀ i, i ≠ 22 → i ≠ 23 → readByte buf1 i = readByte (List.replicate 24 0x55) i :=
  set_layout_odd 1 8 (List.replicate 24 0x55) 0 0xABC (by decide) (by decide) (by decide)
    (by decide) (by decide) (by decide)

/-- C10. Packing layout, even case: for every array of `24 * N` bytes, every
channel `c < 16 * N` whose reversed index `r = 16 * N - 1 - c` is even and every
value `v ≤ 4095`, `set c v` succeeds; in the resulting array the byte at offset
`o = 3 * r / 2` is `v >> 4`, the byte at `o + 1` has high nibble `v & 0xF` and
the low nibble it had before, and every other byte is as before. -/
theorem set_layout_even (N cw : Nat) (buf : List Nat) (c v : Nat)
    (hN : 3 * (16 * N - 1) < 65536) (hcw : 16 * N ≤ 2 ^ cw) (hbuf : IsGSData N buf)
    (hc : c < 16 * N) (hv : v < 4096) (heven : (16 * N - 1 - c) % 2 = 0) :
    ∃ buf1 old new, set N cw buf c v = some buf1 ∧
      readByte buf1 (3 * (16 * N - 1 - c) / 2) = some (v >>> 4) ∧
      readByte buf (3 * (16 * N - 1 - c) / 2 + 1) = some old ∧
      readByte buf1 (3 * (16 * N - 1 - c) / 2 + 1) = some new ∧
      new / 16 = v &&& 0xF ∧ new % 16 = old % 16 ∧
      buf1.length = buf.length ∧
      ∀ i, i ≠ 3 * (16 * N - 1 - c) / 2 → i ≠ 3 * (16 * N - 1 - c) / 2 + 1 →
        readByte buf1 i = readByte buf i := by
  obtain ⟨buf1, h1, h2, h3⟩ := set_spec12 hN hcw hbuf hc hv
  have hlen : buf1.length = buf.length := h2.1.trans hbuf.1.symm
  have hl := hbuf.1
  have hpar : ¬ (16 * N - 1 - c) % 2 = 1 := by omega
  have ho1 : 3 * (16 * N - 1 - c) / 2 < buf.length := by omega
  have ho2 : 3 * (16 * N - 1 - c) / 2 + 1 < buf.length := by omega
  have hold := byteAt_lt hbuf (3 * (16 * N - 1 - c) / 2 + 1)
  refine ⟨buf1, byteAt buf (3 * (16 * N - 1 - c) / 2 + 1),
    byteAt buf1 (3 * (16 * N - 1 - c) / 2 + 1), h1, ?_, readByte_of_lt ho2,
    readByte_of_lt (hlen ▸ ho2), ?_, ?_, hlen, ?_⟩
  · rw [readByte_of_lt (hlen ▸ ho1), h3, if_neg hpar, if_pos rfl, Nat.shiftRight_eq_div_pow]
  · rw [h3, if_neg hpar, if_neg (by omega), if_pos rfl, and_0F]
    omega
  · rw [h3, if_neg hpar, if_neg (by omega), if_pos rfl]
    omega
  · intro i hi1 hi2
    apply readByte_congr hlen
    rw [h3, if_neg hpar, if_neg hi1, if_neg hi2]

/-- Witness for C10, the example of the specification: one chip, channel 15
(reversed index 0), value `0x123`, on an array filled with `0x55`. -/
theorem set_layout_even_witness :
    ∃ buf1 old new, set 1 8 (List.replicate 24 0x55) 15 0x123 = some buf1 ∧
      readByte buf1 0 = some 0x12 ∧
      readByte (List.replicate 24 0x55) 1 = some old ∧
      readByte buf1 1 = some new ∧
      new / 16 = 0x3 ∧ new % 16 = old % 16 ∧
      buf1.length = 24 ∧
      ∀ i, i ≠ 0 → i ≠ 1 → readByte buf1 i = readByte (List.replicate 24 0x55) i :=
  set_layout_even 1 8 (List.replicate 24 0x55) 15 0x123 (by decide) (by decide) (by decide)
    (by decide) (by decide) (by decide)

/-! ## Values wider than 12 bits -/

/-- Bits 12 to 15 of a value, ORed into a byte at the high nibble. -/
theorem or_high_bits (a y x : Nat) (hy : y < 16) :
    (a * 16 + y) ||| ((x >>> 12) <<< 4) = (a ||| x / 4096) * 16 + y := by
  have h1 : (x >>> 12) <<< 4 = x / 4096 * 16 := by
    rw [Nat.shiftRight_eq_div_pow, Nat.shiftLeft_eq]
  rw [h1, ← or_low16 a y hy, Nat.or_assoc, Nat.or_comm y, ← Nat.or_assoc, or_mul16,
    or_low16 _ y hy]

/-- C8, as stated, fails: with one chip and an all-zero array, `set 0 0x1ABC`
and `set 0 0xABC` leave different arrays, and after `set 0 0x1ABC` the
neighbouring channel 1, which was 0, reads back 1. -/
theorem set_truncation_counterexample :
    ∃ buf1 buf2, set 1 8 (List.replicate 24 0) 0 0x1ABC = some buf1 ∧
      set 1 8 (List.replicate 24 0) 0 (0x1ABC % 4096) = some buf2 ∧ buf1 ≠ buf2 ∧
      get 1 8 (List.replicate 24 0) 1 = some 0 ∧ get 1 8 buf1 1 = some 1 :=
  ⟨_, _, rfl, rfl, by decide, by decide, by decide⟩

/-- C8, amended. For every array of `24 * N` bytes, every channel `c < 16 * N`
and every 16-bit value `v`, `set c v` and `set c (v mod 4096)` both succeed and
keep the length of the array.  When the reversed index `r = 16 * N - 1 - c` is
even they leave the same array.  When `r` is odd they leave the same byte at
every offset but `o = 3 * r / 2`; there `set c v` stores
`(old & 0xF0) | (v >> 8)`, `old` being the byte at `o` before the call, which
is the byte stored by `set c (v mod 4096)` ORed with bits 12 to 15 of `v`
shifted into the high nibble.  After `set c (v mod 4096)`, `get c` returns
`v mod 4096` and every other channel reads what it read before the call; when
`v ≤ 4095` that is the array `set c v` leaves, so the value is stored unchanged
and the neighbouring channels are preserved. -/
theorem set_high_bits (N cw : Nat) (buf : List Nat) (c v : Nat)
    (hN : 3 * (16 * N - 1) < 65536) (hcw : 16 * N ≤ 2 ^ cw) (hbuf : IsGSData N buf)
    (hc : c < 16 * N) (hv : v < 65536) :
    ∃ buf1 buf2, set N cw buf c v = some buf1 ∧ set N cw buf c (v % 4096) = some buf2 ∧
      buf1.length = buf.length ∧ buf2.length = buf.length ∧
      ((16 * N - 1 - c) % 2 = 0 → buf1 = buf2) ∧
      ((16 * N - 1 - c) % 2 = 1 →
        (∀ i, i ≠ 3 * (16 * N - 1 - c) / 2 → readByte buf1 i = readByte buf2 i) ∧
        ∃ old b, readByte buf (3 * (16 * N - 1 - c) / 2) = some old ∧
          readByte buf2 (3 * (16 * N - 1 - c) / 2) = some b ∧
          readByte buf1 (3 * (16 * N - 1 - c) / 2) = some ((old &&& 0xF0) ||| (v >>> 8)) ∧
          (old &&& 0xF0) ||| (v >>> 8) = b ||| ((v >>> 12) <<< 4)) ∧
      get N cw buf2 c = some (v % 4096) ∧
      (∀ c2, c2 < 16 * N → c2 ≠ c → get N cw buf2 c2 = get N cw buf c2) ∧
      (v < 4096 → buf1 = buf2 ∧ get N cw buf1 c = some v ∧
        ∀ c2, c2 < 16 * N → c2 ≠ c → get N cw buf1 c2 = get N cw buf c2) := by
  obtain ⟨buf1, h1, h2, h3⟩ := set_spec hN hcw hbuf hc hv
  obtain ⟨buf2, k1, k2, k3⟩ := set_spec12 hN hcw hbuf hc (show v % 4096 < 4096 by omega)
  have hl := hbuf.1
  have hlen1 : buf1.length = buf.length := h2.1.trans hl.symm
  have hlen2 : buf2.length = buf.length := k2.1.trans hl.symm
  have hlen : buf1.length = buf2.length := hlen1.trans hlen2.symm
  have ho1 : 3 * (16 * N - 1 - c) / 2 < buf.length := by omega
  obtain ⟨b, g1, _, g3⟩ := get_after_set hN hcw hbuf hc (show v % 4096 < 4096 by omega)
  have eb : buf2 = b := Option.some.inj (k1.symm.trans g1)
  have hself : get N cw buf2 c = some (v % 4096) := by
    rw [eb, g3 c hc, if_pos rfl]
  have hother : ∀ c2, c2 < 16 * N → c2 ≠ c → get N cw buf2 c2 = get N cw buf c2 := by
    intro c2 hc2 hne
    rw [eb, g3 c2 hc2, if_neg hne]
  refine ⟨buf1, buf2, h1, k1, hlen1, hlen2, ?_, ?_, hself, hother, ?_⟩
  · intro heven
    have hpar : ¬ (16 * N - 1 - c) % 2 = 1 := by omega
    apply ext_byteAt hlen
    intro i _
    rw [h3, k3, if_neg hpar, if_neg hpar]
    split_ifs <;> omega
  · intro hodd
    have hold := byteAt_lt hbuf (3 * (16 * N - 1 - c) / 2)
    have e : v % 4096 / 256 = v / 256 % 16 := by omega
    have hstored : (byteAt buf (3 * (16 * N - 1 - c) / 2) &&& 0xF0) ||| (v >>> 8)
        = (byteAt buf (3 * (16 * N - 1 - c) / 2) / 16 ||| v / 4096) * 16 + v / 256 % 16 := by
      have hs : v >>> 8 < 2 ^ 8 := by
        rw [Nat.shiftRight_eq_div_pow]; norm_num; omega
      have ha : byteAt buf (3 * (16 * N - 1 - c) / 2) &&& 0xF0 < 2 ^ 8 :=
        Nat.lt_of_le_of_lt Nat.and_le_left hold
      rw [← set_odd_first _ _ hold hv, Nat.mod_eq_of_lt (Nat.or_lt_two_pow ha hs)]
    refine ⟨fun i hi => ?_, byteAt buf (3 * (16 * N - 1 - c) / 2),
      byteAt buf2 (3 * (16 * N - 1 - c) / 2), readByte_of_lt ho1,
      readByte_of_lt (hlen2 ▸ ho1), ?_, ?_⟩
    · apply readByte_congr hlen
      rw [h3, k3, if_pos hodd, if_pos hodd, if_neg hi, if_neg hi]
      split_ifs <;> omega
    · rw [readByte_of_lt (hlen1 ▸ ho1), h3, if_pos hodd, if_pos rfl, hstored]
    · rw [hstored, k3, if_pos hodd, if_pos rfl, or_high_bits _ _ _ (by omega), e]
  · intro hsmall
    have ev : v % 4096 = v := Nat.mod_eq_of_lt hsmall
    have e12 : buf1 = buf2 := by
      rw [ev] at k1
      exact Option.some.inj (h1.symm.trans k1)
    refine ⟨e12, ?_, fun c2 hc2 hne => ?_⟩
    · rw [e12, hself, ev]
    · rw [e12, hother c2 hc2 hne]

/-- Witness for C8 amended: one chip, channel 0 (odd reversed index 15, offset
22), value `0x1ABC`, on an array filled with `0x20`: `set 0 0x1ABC` leaves
`0x3A` in byte 22 where `set 0 0xABC` leaves `0x2A`. -/
theorem set_high_bits_witness :
    ∃ buf1 buf2, set 1 8 (List.replicate 24 0x20) 0 0x1ABC = some buf1 ∧
      set 1 8 (List.replicate 24 0x20) 0 (0x1ABC % 4096) = some buf2 ∧
      buf1.length = (List.replicate 24 0x20).length ∧
      buf2.length = (List.replicate 24 0x20).length ∧
      ((16 * 1 - 1 - 0) % 2 = 0 → buf1 = buf2) ∧
      ((16 * 1 - 1 - 0) % 2 = 1 →
        (∀ i, i ≠ 3 * (16 * 1 - 1 - 0) / 2 → readByte buf1 i = readByte buf2 i) ∧
        ∃ old b, readByte (List.replicate 24 0x20) (3 * (16 * 1 - 1 - 0) / 2) = some old ∧
          readByte buf2 (3 * (16 * 1 - 1 - 0) / 2) = some b ∧
          readByte buf1 (3 * (16 * 1 - 1 - 0) / 2)
            = some ((old &&& 0xF0) ||| (0x1ABC >>> 8)) ∧
          (old &&& 0xF0) ||| (0x1ABC >>> 8) = b ||| ((0x1ABC >>> 12) <<< 4)) ∧
      get 1 8 buf2 0 = some (0x1ABC % 4096) ∧
      (∀ c2, c2 < 16 * 1 → c2 ≠ 0 →
        get 1 8 buf2 c2 = get 1 8 (List.replicate 24 0x20) c2) ∧
      (0x1ABC < 4096 → buf1 = buf2 ∧ get 1 8 buf1 0 = some 0x1ABC ∧
        ∀ c2, c2 < 16 * 1 → c2 ≠ 0 →
          get 1 8 buf1 c2 = get 1 8 (List.replicate 24 0x20) c2) :=
  set_high_bits 1 8 (List.replicate 24 0x20) 0 0x1ABC (by decide) (by decide) (by decide)
    (by decide) (by decide)

/-! ## Channel values determine the array -/

/-- The value `get` returns is a 12-bit number. -/
theorem get_lt {N cw : Nat} {buf : List Nat} {c : Nat}
    (hN : 3 * (16 * N - 1) < 65536) (hcw : 16 * N ≤ 2 ^ cw) (hbuf : IsGSData N buf)
    (hc : c < 16 * N) : ∃ v, get N cw buf c = some v ∧ v < 4096 := by
  refine ⟨_, get_spec hN hcw hbuf hc, ?_⟩
  have h0 := byteAt_lt hbuf (3 * (16 * N - 1 - c) / 2)
  have h1 := byteAt_lt hbuf (3 * (16 * N - 1 - c) / 2 + 1)
  split_ifs <;> omega

/-- Every byte of the array is made of the values of the two channels it
belongs to. -/
theorem byteAt_of_get {N cw : Nat} {buf : List Nat}
    (hN : 3 * (16 * N - 1) < 65536) (hcw : 16 * N ≤ 2 ^ cw) (hbuf : IsGSData N buf)
    {i : Nat} (hi : i < N * 24) :
    some (byteAt buf i) =
      if i % 3 = 0 then (get N cw buf (16 * N - 1 - 2 * (i / 3))).map (fun x => x / 16)
      else if i % 3 = 1 then
        (get N cw buf (16 * N - 1 - 2 * (i / 3))).bind (fun x =>
          (get N cw buf (16 * N - 1 - (2 * (i / 3) + 1))).map (fun y => x % 16 * 16 + y / 256))
      else (get N cw buf (16 * N - 1 - (2 * (i / 3) + 1))).map (fun y => y % 256) := by
  have hc0 : 16 * N - 1 - 2 * (i / 3) < 16 * N := by omega
  have hc1 : 16 * N - 1 - (2 * (i / 3) + 1) < 16 * N := by omega
  have hr0 : 16 * N - 1 - (16 * N - 1 - 2 * (i / 3)) = 2 * (i / 3) := by omega
  have hr1 : 16 * N - 1 - (16 * N - 1 - (2 * (i / 3) + 1)) = 2 * (i / 3) + 1 := by omega
  have e0 : 3 * (2 * (i / 3)) / 2 = 3 * (i / 3) := by omega
  have e1 : 3 * (2 * (i / 3) + 1) / 2 = 3 * (i / 3) + 1 := by omega
  have p0 : ¬ (2 * (i / 3)) % 2 = 1 := by omega
  have p1 : (2 * (i / 3) + 1) % 2 = 1 := by omega
  rw [get_spec hN hcw hbuf hc0, get_spec hN hcw hbuf hc1, hr0, hr1, e0, e1, if_neg p0,
    if_pos p1]
  have hb0 := byteAt_lt hbuf (3 * (i / 3))
  have hb1 := byteAt_lt hbuf (3 * (i / 3) + 1)
  have hb2 := byteAt_lt hbuf (3 * (i / 3) + 1 + 1)
  simp only [Option.map_some', Option.some_bind]
  generalize hj : i / 3 = j at *
  by_cases t0 : i % 3 = 0
  · have ei : i = 3 * j := by omega
    subst ei
    rw [if_pos t0]
    refine congrArg some ?_
    omega
  · by_cases t1 : i % 3 = 1
    · have ei : i = 3 * j + 1 := by omega
      subst ei
      rw [if_neg t0, if_pos t1]
      refine congrArg some ?_
      omega
    · have ei : i = 3 * j + 1 + 1 := by omega
      subst ei
      rw [if_neg t0, if_neg t1]
      refine congrArg some ?_
      omega

/-- Two arrays on which `get` agrees for every channel are equal. -/
theorem eq_of_get_eq {N cw : Nat} {a b : List Nat}
    (hN : 3 * (16 * N - 1) < 65536) (hcw : 16 * N ≤ 2 ^ cw) (ha : IsGSData N a)
    (hb : IsGSData N b) (h : ∀ c, c < 16 * N → get N cw a c = get N cw b c) : a = b := by
  apply ext_byteAt (ha.1.trans hb.1.symm)
  intro i hi
  have hi2 : i < N * 24 := ha.1 ▸ hi
  have e1 := byteAt_of_get hN hcw ha hi2
  have e2 := byteAt_of_get hN hcw hb hi2
  rw [h _ (by omega), h _ (by omega), ← e2] at e1
  exact Option.some.inj e1

/-- After `setAll v` with a 12-bit value every channel reads `v`. -/
theorem get_after_setAll {N cw : Nat} {buf : List Nat} {v : Nat}
    (hN : 3 * (16 * N - 1) < 65536) (hcw : 16 * N ≤ 2 ^ cw) (hl : buf.length = N * 24)
    (hv : v < 4096) :
    ∃ buf1, setAll N buf v = some buf1 ∧ IsGSData N buf1 ∧
      ∀ c, c < 16 * N → get N cw buf1 c = some v := by
  obtain ⟨buf1, h1, h2, h3⟩ := setAll_spec12 hl hv
  refine ⟨buf1, h1, h2, fun c hc => ?_⟩
  rw [get_spec hN hcw h2 hc, h3 _ (by omega), h3 _ (by omega)]
  refine congrArg some ?_
  split_ifs <;> omega

/-- C18. Writing back what was read changes nothing: for every array of
`24 * N` bytes and every channel `c < 16 * N`, `get c` returns a value `v` and
`set c v` returns the very same array; and an array of `24 * N` bytes on which
`get` returns the same value for every channel is the same array. -/
theorem set_get_noop (N cw : Nat) (buf : List Nat) (c : Nat)
    (hN : 3 * (16 * N - 1) < 65536) (hcw : 16 * N ≤ 2 ^ cw) (hbuf : IsGSData N buf)
    (hc : c < 16 * N) :
    (∃ v, get N cw buf c = some v ∧ set N cw buf c v = some buf) ∧
      ∀ buf2, IsGSData N buf2 →
        (∀ c2, c2 < 16 * N → get N cw buf2 c2 = get N cw buf c2) → buf2 = buf := by
  refine ⟨?_, fun buf2 h2 hg => eq_of_get_eq hN hcw h2 hbuf hg⟩
  obtain ⟨v, hv, hlt⟩ := get_lt hN hcw hbuf hc
  obtain ⟨buf1, h1, h2, h3⟩ := get_after_set hN hcw hbuf hc hlt
  have e : buf1 = buf := by
    apply eq_of_get_eq hN hcw h2 hbuf
    intro c2 hc2
    rw [h3 c2 hc2]
    by_cases hcc : c2 = c
    · rw [if_pos hcc, hcc, hv]
    · rw [if_neg hcc]
  exact ⟨v, hv, e ▸ h1⟩

/-- Witness for C18: one chip, 8-bit channel type, the array `0, 1, ..., 23`,
channel 4. -/
theorem set_get_noop_witness :
    (∃ v, get 1 8 (List.range 24) 4 = some v ∧
        set 1 8 (List.range 24) 4 v = some (List.range 24)) ∧
      ∀ buf2, IsGSData 1 buf2 →
        (∀ c2, c2 < 16 * 1 → get 1 8 buf2 c2 = get 1 8 (List.range 24) c2) →
        buf2 = List.range 24 :=
  set_get_noop 1 8 (List.range 24) 4 (by decide) (by decide) (by decide) (by decide)

/-- C19. Writes to distinct channels commute and a later write to the same
channel wins: for every array of `24 * N` bytes, channels `c1`, `c2` below
`16 * N` and values `v1`, `v2 ≤ 4095`, if `c1 ≠ c2` then `set c1 v1` followed
by `set c2 v2` and `set c2 v2` followed by `set c1 v1` both succeed with the
same array; and `set c1 v1` followed by `set c1 v2` succeeds with the array of
`set c1 v2` alone. -/
theorem set_set (N cw : Nat) (buf : List Nat) (c1 c2 v1 v2 : Nat)
    (hN : 3 * (16 * N - 1) < 65536) (hcw : 16 * N ≤ 2 ^ cw) (hbuf : IsGSData N buf)
    (hc1 : c1 < 16 * N) (hc2 : c2 < 16 * N) (hv1 : v1 < 4096) (hv2 : v2 < 4096) :
    (c1 ≠ c2 → ∃ b,
        (set N cw buf c1 v1).bind (fun x => set N cw x c2 v2) = some b ∧
        (set N cw buf c2 v2).bind (fun x => set N cw x c1 v1) = some b) ∧
      ∃ b, (set N cw buf c1 v1).bind (fun x => set N cw x c1 v2) = some b ∧
        set N cw buf c1 v2 = some b := by
  obtain ⟨a1, ha1, ha2, ha3⟩ := get_after_set hN hcw hbuf hc1 hv1
  obtain ⟨a2, hb1, hb2, hb3⟩ := get_after_set hN hcw hbuf hc2 hv2
  obtain ⟨a12, hg1, hg2, hc3⟩ := get_after_set hN hcw ha2 hc2 hv2
  obtain ⟨a21, hd1, hd2, hd3⟩ := get_after_set hN hcw hb2 hc1 hv1
  obtain ⟨a11, he1, he2, he3⟩ := get_after_set hN hcw ha2 hc1 hv2
  obtain ⟨a1b, hf1, hf2, hf3⟩ := get_after_set hN hcw hbuf hc1 hv2
  refine ⟨fun hne => ⟨a12, ?_, ?_⟩, a11, ?_, ?_⟩
  · rw [ha1, Option.some_bind, hg1]
  · rw [hb1, Option.some_bind, hd1]
    refine congrArg some (eq_of_get_eq hN hcw hd2 hg2 (fun c hc => ?_))
    rw [hd3 c hc, hc3 c hc, hb3 c hc, ha3 c hc]
    by_cases e1 : c = c1
    · have e2 : ¬ c = c2 := fun h => hne (e1.symm.trans h)
      rw [if_pos e1, if_neg e2, if_pos e1]
    · rw [if_neg e1, if_neg e1]
  · rw [ha1, Option.some_bind, he1]
  · rw [hf1]
    refine congrArg some (eq_of_get_eq hN hcw hf2 he2 (fun c hc => ?_))
    rw [hf3 c hc, he3 c hc, ha3 c hc]
    by_cases e1 : c = c1
    · rw [if_pos e1, if_pos e1]
    · rw [if_neg e1, if_neg e1, if_neg e1]

/-- Witness for C19: one chip, the array `0, 1, ..., 23`, the neighbours 4 and
5, which share byte 16. -/
theorem set_set_witness :
    (4 ≠ 5 → ∃ b,
        (set 1 8 (List.range 24) 4 0xABC).bind (fun x => set 1 8 x 5 0x123) = some b ∧
        (set 1 8 (List.range 24) 5 0x123).bind (fun x => set 1 8 x 4 0xABC) = some b) ∧
      ∃ b, (set 1 8 (List.range 24) 4 0xABC).bind (fun x => set 1 8 x 4 0x123) = some b ∧
        set 1 8 (List.range 24) 4 0x123 = some b :=
  set_set 1 8 (List.range 24) 4 5 0xABC 0x123 (by decide) (by decide) (by decide)
    (by decide) (by decide) (by decide) (by decide)

/-- After `set` on the channels `0, ..., n - 1` those channels read `v` and the
others read what they read before. -/
theorem setEveryChannel_spec {N cw : Nat} {buf : List Nat} {v : Nat}
    (hN : 3 * (16 * N - 1) < 65536) (hcw : 16 * N ≤ 2 ^ cw) (hbuf : IsGSData N buf)
    (hv : v < 4096) :
    ∀ n, n ≤ 16 * N → ∃ b, setEveryChannel N cw v n buf = some b ∧ IsGSData N b ∧
      ∀ c, c < 16 * N → get N cw b c = if c < n then some v else get N cw buf c := by
  intro n
  induction n with
  | zero =>
    intro _
    exact ⟨buf, rfl, hbuf, fun c _ => by simp⟩
  | succ n ih =>
    intro hn
    obtain ⟨b, h1, h2, h3⟩ := ih (by omega)
    obtain ⟨b1, k1, k2, k3⟩ := get_after_set hN hcw h2 (show n < 16 * N by omega) hv
    refine ⟨b1, ?_, k2, fun c hc => ?_⟩
    · rw [setEveryChannel, h1, Option.some_bind, k1]
    · rw [k3 c hc, h3 c hc]
      by_cases e1 : c = n
      · have e2 : c < n + 1 := by omega
        rw [if_pos e1, if_pos e2]
      · by_cases e2 : c < n
        · have e3 : c < n + 1 := by omega
          rw [if_neg e1, if_pos e2, if_pos e3]
        · have e3 : ¬ c < n + 1 := by omega
          rw [if_neg e1, if_neg e2, if_neg e3]

/-- C11. `setAll` does what `set` on every channel does: for every initial
array of `24 * N` bytes and every value `v ≤ 4095`, `setAll v` and the calls
`set c v` for `c = 0, ..., 16 * N - 1` both succeed and leave the same array,
byte for byte. -/
theorem setAll_eq_setEveryChannel (N cw : Nat) (buf : List Nat) (v : Nat)
    (hN : 3 * (16 * N - 1) < 65536) (hcw : 16 * N ≤ 2 ^ cw) (hbuf : IsGSData N buf)
    (hv : v < 4096) :
    ∃ b, setAll N buf v = some b ∧ setEveryChannel N cw v (16 * N) buf = some b := by
  obtain ⟨b1, h1, h2, h3⟩ := get_after_setAll hN hcw hbuf.1 hv
  obtain ⟨b2, k1, k2, k3⟩ := setEveryChannel_spec hN hcw hbuf hv (16 * N) (Nat.le_refl _)
  refine ⟨b1, h1, ?_⟩
  rw [k1]
  refine congrArg some (eq_of_get_eq hN hcw k2 h2 (fun c hc => ?_))
  rw [k3 c hc, h3 c hc, if_pos hc]

/-- Witness for C11: two chips, 8-bit channel type, the array `0, 1, ..., 47`,
value `0x9A7`. -/
theorem setAll_eq_setEveryChannel_witness :
    ∃ b, setAll 2 (List.range 48) 0x9A7 = some b ∧
      setEveryChannel 2 8 0x9A7 (16 * 2) (List.range 48) = some b :=
  setAll_eq_setEveryChannel 2 8 (List.range 48) 0x9A7 (by decide) (by decide) (by decide)
    (by decide)

/-! ## `setAll` for any 16-bit value -/

theorem or_mod16 (a x : Nat) : (a ||| x) % 16 = a % 16 ||| x % 16 := by
  apply Nat.eq_of_testBit_eq
  intro i
  have e : (16 : Nat) = 2 ^ 4 := rfl
  rw [e]
  simp only [Nat.testBit_mod_two_pow, Nat.testBit_or]
  by_cases h : i < 4 <;> simp [h]

theorem or_low_nibble (a y x : Nat) (hy : y < 16) (hx : x < 16) :
    (a * 16 + y) ||| x = a * 16 + (y ||| x) := by
  rw [← or_low16 a y hy, Nat.or_assoc, or_low16 a _ (or_nibble_lt y x hy hx)]

/-- The second byte of the pattern of `setAll` for a 16-bit value. -/
theorem setAll_second16 (v : Nat) (hv : v < 65536) :
    (((v <<< 4) % 65536) ||| (v >>> 8)) % 256 = (v % 16 ||| v / 4096) * 16 + v / 256 % 16 := by
  have h1 : (v <<< 4) % 65536 = v % 4096 * 16 := by
    rw [Nat.shiftLeft_eq]; norm_num; omega
  have h2 : v >>> 8 = v / 4096 * 16 + v / 256 % 16 := by
    rw [Nat.shiftRight_eq_div_pow]; norm_num; omega
  have h3 : (v % 4096 ||| v / 4096) % 16 = v % 16 ||| v / 4096 := by
    rw [or_mod16]
    have e1 : v % 4096 % 16 = v % 16 := by omega
    have e2 : v / 4096 % 16 = v / 4096 := by omega
    rw [e1, e2]
  rw [h1, h2, ← or_low16 (v / 4096) _ (by omega), ← Nat.or_assoc, or_mul16,
    or_low16 _ _ (by omega), ← h3]
  omega

/-- What `setAll` leaves in the array for a 16-bit value. -/
theorem setAll_spec16 {N : Nat} {buf : List Nat} {v : Nat}
    (hl : buf.length = N * 24) (hv : v < 65536) :
    ∃ buf1, setAll N buf v = some buf1 ∧ IsGSData N buf1 ∧
      ∀ i, i < N * 24 → byteAt buf1 i =
        if i % 3 = 0 then v / 16 % 256
        else if i % 3 = 1 then (v % 16 ||| v / 4096) * 16 + v / 256 % 16
        else v % 256 := by
  obtain ⟨buf1, e1, e2, e3⟩ := setAllLoop_spec N ((v >>> 4) % 256)
    ((((v <<< 4) % 65536) ||| (v >>> 8)) % 256) v (N * 24) 0 buf (by omega) (by omega) hl
    (by omega)
  have hq : v % 16 ||| v / 4096 < 16 := or_nibble_lt _ _ (by omega) (by omega)
  have e4 : ∀ i, i < N * 24 → byteAt buf1 i =
      if i % 3 = 0 then v / 16 % 256
      else if i % 3 = 1 then (v % 16 ||| v / 4096) * 16 + v / 256 % 16
      else v % 256 := by
    intro i hi
    rw [e3 i, if_pos ⟨Nat.zero_le _, hi⟩, setAll_second16 v hv, Nat.shiftRight_eq_div_pow]
    norm_num
    split_ifs <;> omega
  refine ⟨buf1, e1, isGSData_of_byteAt e2 (fun i hi => ?_), e4⟩
  rw [e4 i (by omega)]
  split_ifs <;> omega

/-- C12, as stated, fails: with one chip, after `setAll 0x1ABC` channel 0 reads
`0xABC` and channel 1 reads `0xABD`; the channels do not all read one value,
and channel 1 does not read `0x1ABC mod 4096`. -/
theorem setAll_wide_counterexample :
    ∃ buf1, setAll 1 (List.replicate 24 0) 0x1ABC = some buf1 ∧
      get 1 8 buf1 0 = some 0xABC ∧ get 1 8 buf1 1 = some 0xABD ∧
      0x1ABC % 4096 = 0xABC :=
  ⟨_, rfl, by decide, by decide, by decide⟩

/-- C12, amended. For every initial array of `24 * N` bytes and every 16-bit
value `v`, `setAll v` succeeds; afterwards a channel whose reversed index
`16 * N - 1 - c` is odd reads `v mod 4096`, and a channel whose reversed index
is even reads `v mod 4096` ORed with bits 12 to 15 of `v` moved to bits 0 to
3. -/
theorem setAll_wide_get (N cw : Nat) (buf : List Nat) (c v : Nat)
    (hN : 3 * (16 * N - 1) < 65536) (hcw : 16 * N ≤ 2 ^ cw) (hl : buf.length = N * 24)
    (hc : c < 16 * N) (hv : v < 65536) :
    ∃ buf1, setAll N buf v = some buf1 ∧
      get N cw buf1 c = some
        (if (16 * N - 1 - c) % 2 = 1 then v % 4096 else (v % 4096) ||| (v >>> 12)) ∧
      (v < 4096 → get N cw buf1 c = some v) := by
  obtain ⟨buf1, h1, h2, h3⟩ := setAll_spec16 hl hv
  have hq : v % 16 ||| v / 4096 < 16 := or_nibble_lt _ _ (by omega) (by omega)
  have e : (v % 4096) ||| (v >>> 12) = v / 16 % 256 * 16 + (v % 16 ||| v / 4096) := by
    have e1 : v % 4096 = v / 16 % 256 * 16 + v % 16 := by omega
    have e2 : v >>> 12 = v / 4096 := by rw [Nat.shiftRight_eq_div_pow]
    rw [e2, e1, or_low_nibble _ _ _ (by omega) (by omega)]
  have hmain : get N cw buf1 c = some
      (if (16 * N - 1 - c) % 2 = 1 then v % 4096 else (v % 4096) ||| (v >>> 12)) := by
    rw [get_spec hN hcw h2 hc, h3 _ (by omega), h3 _ (by omega), e]
    refine congrArg some ?_
    split_ifs <;> omega
  refine ⟨buf1, h1, hmain, fun h => ?_⟩
  have e1 : v % 4096 = v := Nat.mod_eq_of_lt h
  have e2 : v >>> 12 = 0 := by
    rw [Nat.shiftRight_eq_div_pow]; exact Nat.div_eq_of_lt h
  rw [hmain, e1, e2, Nat.or_zero, ite_self]

/-- Witness for C12 amended: one chip, channel 1 (even reversed index), value
`0x1ABC`. -/
theorem setAll_wide_get_witness :
    ∃ buf1, setAll 1 (List.range 24) 0x1ABC = some buf1 ∧
      get 1 8 buf1 1 = some
        (if (16 * 1 - 1 - 1) % 2 = 1 then 0x1ABC % 4096
          else (0x1ABC % 4096) ||| (0x1ABC >>> 12)) ∧
      (0x1ABC < 4096 → get 1 8 buf1 1 = some 0x1ABC) :=
  setAll_wide_get 1 8 (List.range 24) 1 0x1ABC (by decide) (by decide) (by decide)
    (by decide) (by decide)

/-! ## `clear` and `init` -/

theorem byteAt_replicate (n i : Nat) : byteAt (List.replicate n 0) i = 0 := by
  unfold byteAt readByte
  by_cases h : i < n
  · simp [List.getElem?_replicate, h]
  · simp [List.getElem?_replicate, h]

/-- On success `setAll` leaves an array of `24 * N` bytes, whatever the value. -/
theorem setAll_isGSData {N : Nat} {buf : List Nat} (v : Nat) (hl : buf.length = N * 24) :
    ∃ buf1, setAll N buf v = some buf1 ∧ IsGSData N buf1 := by
  obtain ⟨buf1, e1, e2, e3⟩ := setAllLoop_spec N ((v >>> 4) % 256)
    ((((v <<< 4) % 65536) ||| (v >>> 8)) % 256) v (N * 24) 0 buf (by omega) (by omega) hl
    (by omega)
  refine ⟨buf1, e1, isGSData_of_byteAt e2 (fun i hi => ?_)⟩
  rw [e3 i, if_pos ⟨Nat.zero_le _, by omega⟩]
  split_ifs <;> omega

/-- The array after `setAll 0` is all zero. -/
theorem setAll_zero {N : Nat} {buf : List Nat} (hl : buf.length = N * 24) :
    setAll N buf 0 = some (List.replicate (N * 24) 0) := by
  obtain ⟨buf1, h1, h2, h3⟩ := setAll_spec12 hl (show 0 < 4096 by omega)
  rw [h1]
  refine congrArg some (ext_byteAt (by rw [h2.1, List.length_replicate]) (fun i hi => ?_))
  rw [h3 i (h2.1 ▸ hi), byteAt_replicate]
  split_ifs <;> rfl

/-- The array after `init` is the array after `setAll`. -/
theorem init_eq {N : Nat} {s : TlcState} {v : Nat} {b : List Nat}
    (hb : setAll N s.tlc_GSData v = some b) (hl : b.length = N * 24) :
    ∃ tr, init N s v = some { tlc_GSData := b, trace := tr } := by
  unfold init
  rw [hb]
  simp only [Option.bind_eq_bind, Option.some_bind]
  rw [update_eq (s := ⟨b, _⟩) hl]
  simp only [Option.some_bind]
  rw [update_eq (s := ⟨b, _⟩) hl]
  exact ⟨_, rfl⟩

/-- C14. `clear` is `setAll 0`: for every state whose array has `24 * N` bytes,
`clear` and `setAll 0` succeed with the same array, every byte of which is 0;
every channel reads 0 from it; and the call leaves the trace of hardware events
as it was, so it shifts out nothing. -/
theorem clear_eq_setAll_zero (N cw : Nat) (s : TlcState)
    (hN : 3 * (16 * N - 1) < 65536) (hcw : 16 * N ≤ 2 ^ cw)
    (hl : s.tlc_GSData.length = N * 24) :
    ∃ b, clear N s.tlc_GSData = some b ∧ setAll N s.tlc_GSData 0 = some b ∧
      b = List.replicate (N * 24) 0 ∧
      (∀ c, c < 16 * N → get N cw b c = some 0) ∧
      step N cw s Op.clear = some { tlc_GSData := b, trace := s.trace } := by
  obtain ⟨b1, h1, _, h3⟩ := get_after_setAll hN hcw hl (show 0 < 4096 by omega)
  have hz := setAll_zero hl
  have e : b1 = List.replicate (N * 24) 0 := Option.some.inj (h1.symm.trans hz)
  refine ⟨List.replicate (N * 24) 0, hz, hz, rfl, fun c hc => e ▸ h3 c hc, ?_⟩
  simp [step, clear, hz]

/-- Witness for C14: one chip, 8-bit channel type, the array `0, 1, ..., 23`
after an earlier transfer of the byte 7. -/
theorem clear_eq_setAll_zero_witness :
    ∃ b, clear 1 (List.range 24) = some b ∧ setAll 1 (List.range 24) 0 = some b ∧
      b = List.replicate (1 * 24) 0 ∧
      (∀ c, c < 16 * 1 → get 1 8 b c = some 0) ∧
      step 1 8 ⟨List.range 24, [Event.shift8 7]⟩ Op.clear
        = some { tlc_GSData := b, trace := [Event.shift8 7] } :=
  clear_eq_setAll_zero 1 8 ⟨List.range 24, [Event.shift8 7]⟩ (by decide) (by decide) rfl

/-- C15. After `init v` with `v ≤ 4095`, from any earlier contents of the
`24 * N` byte array and any earlier history, `init` returns and every channel
`c < 16 * N` reads `v`. -/
theorem get_init (N cw : Nat) (s : TlcState) (v : Nat)
    (hN : 3 * (16 * N - 1) < 65536) (hcw : 16 * N ≤ 2 ^ cw)
    (hl : s.tlc_GSData.length = N * 24) (hv : v < 4096) :
    ∃ s1, init N s v = some s1 ∧ ∀ c, c < 16 * N → get N cw s1.tlc_GSData c = some v := by
  obtain ⟨b, h1, h2, h3⟩ := get_after_setAll hN hcw hl hv
  obtain ⟨tr, htr⟩ := init_eq h1 h2.1
  exact ⟨_, htr, h3⟩

/-- Witness for C15, the example of the specification: one chip, `init 0`; all
16 channels read 0. -/
theorem get_init_witness :
    ∃ s1, init 1 ⟨List.range 24, []⟩ 0 = some s1 ∧
      ∀ c, c < 16 * 1 → get 1 8 s1.tlc_GSData c = some 0 :=
  get_init 1 8 ⟨List.range 24, []⟩ 0 (by decide) (by decide) rfl (by decide)

/-! ## The length of the array -/

/-- One call in range keeps the array an array of `24 * N` bytes, and returns
when it is not a `get` outside the channel range. -/
theorem step_isGSData {N cw : Nat} {s : TlcState} {op : Op}
    (hN : 3 * (16 * N - 1) < 65536) (hcw : 16 * N ≤ 2 ^ cw)
    (hs : IsGSData N s.tlc_GSData) (hop : Op.InRange N op) :
    (∀ s1, step N cw s op = some s1 → IsGSData N s1.tlc_GSData) ∧
      (Op.GetInRange N op → ∃ s1, step N cw s op = some s1) := by
  cases op with
  | set c v =>
    obtain ⟨b, h1, h2, _⟩ := set_spec hN hcw hs hop.1 hop.2
    have e : step N cw s (Op.set c v) = some { tlc_GSData := b, trace := s.trace } := by
      simp [step, h1]
    rw [e]
    exact ⟨fun s1 h => (Option.some.inj h) ▸ h2, fun _ => ⟨_, rfl⟩⟩
  | get c =>
    refine ⟨fun s1 h => ?_, fun hg => ?_⟩
    · simp only [step, Option.map_eq_some'] at h
      obtain ⟨_, _, rfl⟩ := h
      exact hs
    · have hc : c < 16 * N := hg
      exact ⟨s, by simp [step, get_spec hN hcw hs hc]⟩
  | setAll v =>
    obtain ⟨b, h1, h2⟩ := setAll_isGSData v hs.1
    have e : step N cw s (Op.setAll v) = some { tlc_GSData := b, trace := s.trace } := by
      simp [step, h1]
    rw [e]
    exact ⟨fun s1 h => (Option.some.inj h) ▸ h2, fun _ => ⟨_, rfl⟩⟩
  | clear =>
    obtain ⟨b, h1, h2⟩ := setAll_isGSData 0 hs.1
    have e : step N cw s Op.clear = some { tlc_GSData := b, trace := s.trace } := by
      simp [step, clear, h1]
    rw [e]
    exact ⟨fun s1 h => (Option.some.inj h) ▸ h2, fun _ => ⟨_, rfl⟩⟩
  | update =>
    have e : step N cw s Op.update = some ⟨s.tlc_GSData,
        s.trace ++ pulse_pin Line.SCLK ++ s.tlc_GSData.map Event.shift8⟩ := by
      simp [step, update_eq hs.1]
    rw [e]
    exact ⟨fun s1 h => (Option.some.inj h) ▸ hs, fun _ => ⟨_, rfl⟩⟩
  | init v =>
    obtain ⟨b, h1, h2⟩ := setAll_isGSData v hs.1
    obtain ⟨tr, htr⟩ := init_eq h1 h2.1
    have e : step N cw s (Op.init v) = some { tlc_GSData := b, trace := tr } := by
      simp [step, htr]
    rw [e]
    exact ⟨fun s1 h => (Option.some.inj h) ▸ h2, fun _ => ⟨_, rfl⟩⟩

/-- A sequence of calls in range keeps the array an array of `24 * N` bytes. -/
theorem run_isGSData {N cw : Nat} (hN : 3 * (16 * N - 1) < 65536) (hcw : 16 * N ≤ 2 ^ cw) :
    ∀ (ops : List Op) (s : TlcState), IsGSData N s.tlc_GSData →
      (∀ op ∈ ops, Op.InRange N op) →
      (∀ s1, run N cw ops s = some s1 → IsGSData N s1.tlc_GSData) ∧
        ((∀ op ∈ ops, Op.GetInRange N op) → ∃ s1, run N cw ops s = some s1) := by
  intro ops
  induction ops with
  | nil =>
    intro s hs _
    exact ⟨fun s1 h => (Option.some.inj h) ▸ hs, fun _ => ⟨s, rfl⟩⟩
  | cons op ops ih =>
    intro s hs hops
    have hop := hops op (List.mem_cons_self _ _)
    have hrest : ∀ o ∈ ops, Op.InRange N o := fun o ho => hops o (List.mem_cons_of_mem _ ho)
    obtain ⟨k1, k2⟩ := step_isGSData (s := s) hN hcw hs hop
    refine ⟨fun s1 h => ?_, fun hg => ?_⟩
    · rw [run] at h
      cases hstep : step N cw s op with
      | none => rw [hstep] at h; exact absurd h (by simp)
      | some s2 =>
        rw [hstep, Option.some_bind] at h
        exact (ih s2 (k1 s2 hstep) hrest).1 s1 h
    · obtain ⟨s2, hstep⟩ := k2 (hg op (List.mem_cons_self _ _))
      obtain ⟨s1, hrun⟩ := (ih s2 (k1 s2 hstep) hrest).2
        (fun o ho => hg o (List.mem_cons_of_mem _ ho))
      exact ⟨s1, by rw [run, hstep, Option.some_bind, hrun]⟩

/-- C13. The array has exactly `24 * N` bytes in the initial state, and from any
state whose array has `24 * N` bytes, after any finite sequence of `set` (with
a channel below `16 * N`), `setAll`, `clear`, `get`, `update` and `init` calls:
whenever the sequence returns, the array has `24 * N` bytes, and the sequence
does return when every `get` in it has its channel below `16 * N`. -/
theorem length_invariant (N cw : Nat) (ops : List Op) (s : TlcState)
    (hN : 3 * (16 * N - 1) < 65536) (hcw : 16 * N ≤ 2 ^ cw)
    (hs : IsGSData N s.tlc_GSData) (hops : ∀ op ∈ ops, Op.InRange N op) :
    (initialState N).tlc_GSData.length = 24 * N ∧ IsGSData N (initialState N).tlc_GSData ∧
      (∀ s1, run N cw ops s = some s1 → s1.tlc_GSData.length = 24 * N) ∧
      ((∀ op ∈ ops, Op.GetInRange N op) →
        ∃ s1, run N cw ops s = some s1 ∧ s1.tlc_GSData.length = 24 * N) := by
  have h0 : IsGSData N (initialState N).tlc_GSData := by
    refine ⟨by simp [initialState], fun b hb => ?_⟩
    have : b = 0 := List.eq_of_mem_replicate hb
    omega
  obtain ⟨k1, k2⟩ := run_isGSData hN hcw ops s hs hops
  refine ⟨by rw [h0.1, Nat.mul_comm], h0, fun s1 h => ?_, fun hg => ?_⟩
  · rw [(k1 s1 h).1, Nat.mul_comm]
  · obtain ⟨s1, h⟩ := k2 hg
    exact ⟨s1, h, by rw [(k1 s1 h).1, Nat.mul_comm]⟩

/-- Witness for C13: one chip, from the initial state, one call of each
kind. -/
theorem length_invariant_witness :
    (initialState 1).tlc_GSData.length = 24 * 1 ∧ IsGSData 1 (initialState 1).tlc_GSData ∧
      (∀ s1, run 1 8 [Op.init 0, Op.set 5 4095, Op.update, Op.get 5, Op.setAll 7, Op.clear]
          (initialState 1) = some s1 → s1.tlc_GSData.length = 24 * 1) ∧
      ((∀ op ∈ [Op.init 0, Op.set 5 4095, Op.update, Op.get 5, Op.setAll 7, Op.clear],
          Op.GetInRange 1 op) →
        ∃ s1, run 1 8 [Op.init 0, Op.set 5 4095, Op.update, Op.get 5, Op.setAll 7, Op.clear]
          (initialState 1) = some s1 ∧ s1.tlc_GSData.length = 24 * 1) :=
  length_invariant 1 8 [Op.init 0, Op.set 5 4095, Op.update, Op.get 5, Op.setAll 7, Op.clear]
    (initialState 1) (by decide) (by decide) (by decide)
    (by simp [Op.InRange])

/-! ## End to end -/

/-- C16. One chip: from any earlier state with a 24-byte array, `init 0`
returns; then `set 5 4095` succeeds; the next `update` returns 0 and hands
exactly 24 bytes to `tlc_shift8`, all `0x00` except byte 15 = `0xFF` and byte
16 = `0xF0`; afterwards `get 5` returns 4095 and `get c` returns 0 for every
other channel `c < 16`. -/
theorem init_set_update (cw : Nat) (s : TlcState) (hcw : 16 * 1 ≤ 2 ^ cw)
    (hl : s.tlc_GSData.length = 1 * 24) :
    ∃ s1 b2 s3 ev, init 1 s 0 = some s1 ∧ set 1 cw s1.tlc_GSData 5 4095 = some b2 ∧
      update 1 { tlc_GSData := b2, trace := s1.trace } = some (0, s3) ∧
      s3.trace = s1.trace ++ ev ∧
      shiftedBytes ev
        = [0, 0, 0, 0, 0, 0, 0, 0, 0, 0, 0, 0, 0, 0, 0, 0xFF, 0xF0, 0, 0, 0, 0, 0, 0, 0] ∧
      (shiftedBytes ev).length = 24 ∧
      get 1 cw s3.tlc_GSData 5 = some 4095 ∧
      ∀ c, c < 16 → c ≠ 5 → get 1 cw s3.tlc_GSData c = some 0 := by
  have hN : 3 * (16 * 1 - 1) < 65536 := by decide
  obtain ⟨b, h1, h2, h3⟩ := get_after_setAll hN hcw hl (show 0 < 4096 by omega)
  have hz : b = List.replicate (1 * 24) 0 := Option.some.inj (h1.symm.trans (setAll_zero hl))
  obtain ⟨tr, htr⟩ := init_eq h1 h2.1
  obtain ⟨b2, k1, k2, k3⟩ := get_after_set hN hcw h2 (show 5 < 16 * 1 by decide)
    (show 4095 < 4096 by decide)
  have hset := set_even 4095 hN hcw h2 (show 5 < 16 * 1 by decide) (by decide)
  have hb2 : b2 = [0, 0, 0, 0, 0, 0, 0, 0, 0, 0, 0, 0, 0, 0, 0, 0xFF, 0xF0, 0, 0, 0, 0, 0,
      0, 0] := by
    have e := Option.some.inj (k1.symm.trans hset)
    rw [e, hz]
    decide
  refine ⟨⟨b, tr⟩, b2, ⟨b2, tr ++ pulse_pin Line.SCLK ++ b2.map Event.shift8⟩,
    pulse_pin Line.SCLK ++ b2.map Event.shift8, htr, k1, update_eq (s := ⟨b2, tr⟩) k2.1,
    by simp, ?_, ?_, ?_, ?_⟩
  · rw [shiftedBytes_append, shiftedBytes_map, hb2]; rfl
  · rw [shiftedBytes_append, shiftedBytes_map, hb2]; rfl
  · have := k3 5 (by decide)
    simpa using this
  · intro c hc hne
    rw [k3 c (by omega), if_neg hne]
    exact h3 c (by omega)

/-- Witness for C16: 8-bit channel type, from the array `0, 1, ..., 23`. -/
theorem init_set_update_witness :
    ∃ s1 b2 s3 ev, init 1 ⟨List.range 24, []⟩ 0 = some s1 ∧
      set 1 8 s1.tlc_GSData 5 4095 = some b2 ∧
      update 1 { tlc_GSData := b2, trace := s1.trace } = some (0, s3) ∧
      s3.trace = s1.trace ++ ev ∧
      shiftedBytes ev
        = [0, 0, 0, 0, 0, 0, 0, 0, 0, 0, 0, 0, 0, 0, 0, 0xFF, 0xF0, 0, 0, 0, 0, 0, 0, 0] ∧
      (shiftedBytes ev).length = 24 ∧
      get 1 8 s3.tlc_GSData 5 = some 4095 ∧
      ∀ c, c < 16 → c ≠ 5 → get 1 8 s3.tlc_GSData c = some 0 :=
  init_set_update 8 ⟨List.range 24, []⟩ (by decide) rfl

/-- C17 on the code: with one chip, a second `update` straight after a first
one, with nothing in between, returns 0 and shifts the whole array out
again. -/
theorem update_second_call :
    ∃ s1 s2, update 1 ⟨List.range 24, []⟩ = some (0, s1) ∧ update 1 s1 = some (0, s2) ∧
      shiftedBytes s1.trace = List.range 24 ∧
      shiftedBytes s2.trace = List.range 24 ++ List.range 24 :=
  ⟨_, _, rfl, rfl, by decide, by decide⟩

/-! ## Bounds -/

/-- The loop of `setAll` started at a multiple of three with too little fuel
runs out of it. -/
theorem setAllLoop_none (N a b v : Nat) :
    ∀ (fuel p : Nat) (buf : List Nat), p % 3 = 0 → p + 3 * fuel < N * 24 →
      buf.length = N * 24 → setAllLoop N a b v fuel p buf = none := by
  intro fuel
  induction fuel with
  | zero =>
    intro p buf _ hp _
    have hlt : p < N * 24 := by omega
    simp [setAllLoop, hlt]
  | succ fuel ih =>
    intro p buf hp3 hp hl
    have hlt : p < N * 24 := by omega
    have h0 : p < buf.length := by omega
    have h1 : p + 1 < (buf.set p (a % 256)).length := by rw [List.length_set]; omega
    have h2 : p + 2 < ((buf.set p (a % 256)).set (p + 1) (b % 256)).length := by
      rw [List.length_set, List.length_set]; omega
    rw [setAllLoop, if_pos hlt, writeByte_of_lt h0]
    simp only [Option.bind_eq_bind, Option.some_bind]
    rw [writeByte_of_lt h1]
    simp only [Option.some_bind]
    rw [writeByte_of_lt h2]
    simp only [Option.some_bind]
    exact ih (p + 3) _ (by omega) (by omega) (by simp [hl])

/-- The loop of `update` started at a multiple of three with too little fuel
runs out of it. -/
theorem updateLoop_none (N : Nat) (buf : List Nat) (hl : buf.length = N * 24) :
    ∀ (fuel p : Nat) (tr : List Event), p % 3 = 0 → p + 3 * fuel < N * 24 →
      updateLoop N buf fuel p tr = none := by
  intro fuel
  induction fuel with
  | zero =>
    intro p tr _ hp
    have hlt : p < N * 24 := by omega
    simp [updateLoop, hlt]
  | succ fuel ih =>
    intro p tr hp3 hp
    have hlt : p < N * 24 := by omega
    rw [updateLoop, if_pos hlt, readByte_of_lt (show p < buf.length by omega),
      readByte_of_lt (show p + 1 < buf.length by omega),
      readByte_of_lt (show p + 2 < buf.length by omega)]
    simp only [Option.bind_eq_bind, Option.some_bind]
    exact ih (p + 3) _ (by omega) (by omega)

/-- C20. In-range accesses stay inside the array: for every chain with
`3 * (16 * N - 1) < 65536`, every array of `24 * N` bytes and every channel
`c < 16 * N`, the offset `set` and `get` compute is `3 * r / 2` with
`r = 16 * N - 1 - c`, it and the next offset are below `24 * N`, and `set` and
`get` return a result (no load or store leaves the array).  The loops of
`setAll` and `update`, counted by their fuel, end after exactly `8 * N`
iterations; `setAll` has then stored its pattern at every offset below `24 * N`
of an array still `24 * N` bytes long, and `update` has shifted out the bytes
at the offsets `0, ..., 24 * N - 1`, in order, and nothing else. -/
theorem accesses_in_bounds (N cw : Nat) (buf : List Nat) (c v : Nat)
    (hN : 3 * (16 * N - 1) < 65536) (hcw : 16 * N ≤ 2 ^ cw) (hbuf : IsGSData N buf)
    (hc : c < 16 * N) (hv : v < 65536) :
    index12 (index8 N cw c) = 3 * (16 * N - 1 - c) / 2 ∧
      3 * (16 * N - 1 - c) / 2 + 1 < 24 * N ∧
      (∃ r, set N cw buf c v = some r) ∧ (∃ x, get N cw buf c = some x) ∧
      (∀ a b x fuel, (∃ r, setAllLoop N a b x fuel 0 buf = some r) ↔ 8 * N ≤ fuel) ∧
      (∀ a b x, ∃ r, setAllLoop N a b x (8 * N) 0 buf = some r ∧ r.length = 24 * N ∧
        ∀ i, i < 24 * N → byteAt r i =
          if i % 3 = 0 then a % 256 else if i % 3 = 1 then b % 256 else x % 256) ∧
      (∀ tr fuel, (∃ r, updateLoop N buf fuel 0 tr = some r) ↔ 8 * N ≤ fuel) ∧
      (∀ tr, updateLoop N buf (8 * N) 0 tr = some (tr ++ buf.map Event.shift8)) := by
  have hl := hbuf.1
  refine ⟨?_, by omega, ?_, ⟨_, get_spec hN hcw hbuf hc⟩, ?_, ?_, ?_, ?_⟩
  · rw [index8_of_lt hcw hc, index12_of_lt (by omega)]
  · obtain ⟨r, hr, _⟩ := set_spec hN hcw hbuf hc hv
    exact ⟨r, hr⟩
  · intro a b x fuel
    constructor
    · rintro ⟨r, hr⟩
      by_contra hlt
      rw [setAllLoop_none N a b x fuel 0 buf (by omega) (by omega) hl] at hr
      exact absurd hr (by simp)
    · intro hf
      obtain ⟨r, hr, _⟩ := setAllLoop_spec N a b x fuel 0 buf (by omega) (by omega) hl
        (by omega)
      exact ⟨r, hr⟩
  · intro a b x
    obtain ⟨r, h1, h2, h3⟩ := setAllLoop_spec N a b x (8 * N) 0 buf (by omega) (by omega) hl
      (by omega)
    refine ⟨r, h1, by omega, fun i hi => ?_⟩
    rw [h3 i, if_pos ⟨Nat.zero_le _, by omega⟩]
  · intro tr fuel
    constructor
    · rintro ⟨r, hr⟩
      by_contra hlt
      rw [updateLoop_none N buf hl fuel 0 tr (by omega) (by omega)] at hr
      exact absurd hr (by simp)
    · intro hf
      exact ⟨_, updateLoop_spec N buf hl fuel 0 tr (by omega) (by omega) (by omega)⟩
  · intro tr
    rw [updateLoop_spec N buf hl (8 * N) 0 tr (by omega) (by omega) (by omega), List.drop_zero]

/-- Witness for C20: two chips, 8-bit channel type, the array `0, 1, ..., 47`,
channel 31, value `0xFFFF`. -/
theorem accesses_in_bounds_witness :
    index12 (index8 2 8 31) = 3 * (16 * 2 - 1 - 31) / 2 ∧
      3 * (16 * 2 - 1 - 31) / 2 + 1 < 24 * 2 ∧
      (∃ r, set 2 8 (List.range 48) 31 0xFFFF = some r) ∧
      (∃ x, get 2 8 (List.range 48) 31 = some x) ∧
      (∀ a b x fuel,
        (∃ r, setAllLoop 2 a b x fuel 0 (List.range 48) = some r) ↔ 8 * 2 ≤ fuel) ∧
      (∀ a b x, ∃ r, setAllLoop 2 a b x (8 * 2) 0 (List.range 48) = some r ∧
        r.length = 24 * 2 ∧
        ∀ i, i < 24 * 2 → byteAt r i =
          if i % 3 = 0 then a % 256 else if i % 3 = 1 then b % 256 else x % 256) ∧
      (∀ tr fuel,
        (∃ r, updateLoop 2 (List.range 48) fuel 0 tr = some r) ↔ 8 * 2 ≤ fuel) ∧
      (∀ tr, updateLoop 2 (List.range 48) (8 * 2) 0 tr
        = some (tr ++ (List.range 48).map Event.shift8)) :=
  accesses_in_bounds 2 8 (List.range 48) 31 0xFFFF (by decide) (by decide) (by decide)
    (by decide) (by decide)

end Tlc5940
